import Mathlib

/-!
Verification development for the fortis capture/transcribe/render pipeline.

The definitions below are shallow embeddings of the Rust sources:
strings are modelled as lists of characters (`Str`), Rust byte indices
into UTF-8 strings are modelled as explicit byte offsets computed from
`Char.utf8Size`, fallible operations (Rust panics) return `Option`,
and the stateful widget/config code is modelled by explicit state
passing.  Each embedded definition keeps the name of the Rust item it
translates.
-/

namespace Fortis

/-- Characters of a Rust `String`, in order.  Byte-based operations are
modelled on top of this via `Char.utf8Size`. -/
abbrev Str := List Char

/-- Length in UTF-8 bytes of a string, as returned by Rust `String::len`. -/
def utf8Len (s : Str) : Nat := (s.map Char.utf8Size).sum

/-- Whether a byte offset is a character boundary of the string, as in
Rust `str::is_char_boundary` (offsets `0` and `len` included). -/
def isCharBoundary : Str → Nat → Bool
  | _, 0 => true
  | [], _ + 1 => false
  | a :: l, i + 1 =>
    if i + 1 < a.utf8Size then false else isCharBoundary l (i + 1 - a.utf8Size)

/-- Rust `String::insert buffer idx c`: inserts `c` at byte offset
`idx`.  Rust panics when `idx` is larger than the byte length or not on
a character boundary; the panic is modelled as `none`. -/
def stringInsert : Str → Nat → Char → Option Str
  | l, 0, c => some (c :: l)
  | [], _ + 1, _ => none
  | a :: l, i + 1, c =>
    if i + 1 < a.utf8Size then none
    else (stringInsert l (i + 1 - a.utf8Size) c).map (a :: ·)

/-- Rust `String::remove buffer idx`: removes the character starting at
byte offset `idx`.  Rust panics when `idx` is at or beyond the byte
length or not on a character boundary; the panic is modelled as `none`. -/
def stringRemove : Str → Nat → Option Str
  | [], _ => none
  | _ :: l, 0 => some l
  | a :: l, i + 1 =>
    if i + 1 < a.utf8Size then none
    else (stringRemove l (i + 1 - a.utf8Size)).map (a :: ·)

namespace Widgets

/-- Embedding of `TranscriptionMessage` (src/widgets/transcriptions.rs). -/
structure TranscriptionMessage where
  speaker : Option Str
  speaker_id : Option Int
  content : Str
deriving DecidableEq, Repr

/-- Embedding of `FocusSegment`. -/
inductive FocusSegment where
  | Speaker
  | Message
deriving DecidableEq, Repr

/-- Embedding of `FocusLocation`. -/
structure FocusLocation where
  message_index : Nat
  segment : FocusSegment
deriving DecidableEq, Repr

/-- Embedding of `EditMode`: edit state for speaker names or message
content.  The `cursor` is a byte offset into the UTF-8 encoding of
`buffer`, exactly as in the Rust source. -/
inductive EditMode where
  | None
  | EditingSpeaker (message_index : Nat) (buffer : Str) (cursor : Nat)
  | EditingMessage (message_index : Nat) (buffer : Str) (cursor : Nat)
deriving DecidableEq, Repr

/-- Embedding of `TranscriptionWidgetState`.  The `VecDeque` of
transcriptions is modelled as a list whose head is the front (index 0). -/
structure WidgetState where
  transcriptions : List TranscriptionMessage
  scroll_position : Nat
  focus : Option FocusLocation
  viewport_height : Nat
  edit_mode : EditMode
deriving DecidableEq, Repr

/-- `TranscriptionWidgetState::MAX_TRANSCRIPTIONS`. -/
def MAX_TRANSCRIPTIONS : Nat := 2000

/-- `TranscriptionWidgetState::new`. -/
def WidgetState.new : WidgetState :=
  { transcriptions := []
    scroll_position := 0
    focus := none
    viewport_height := 0
    edit_mode := .None }

/-- `TranscriptionWidgetState::message_has_speaker`. -/
def WidgetState.message_has_speaker (s : WidgetState) (index : Nat) : Bool :=
  match s.transcriptions[index]? with
  | some message => message.speaker.isSome
  | none => false

/-- `TranscriptionWidgetState::resolve_segment_for_message`. -/
def WidgetState.resolve_segment_for_message (s : WidgetState) (index : Nat)
    (preferred : FocusSegment) : FocusSegment :=
  if preferred = .Speaker ∧ s.message_has_speaker index then .Speaker else .Message

/-- `TranscriptionWidgetState::clamp_scroll`. -/
def WidgetState.clamp_scroll (s : WidgetState) : WidgetState :=
  let total := s.transcriptions.length
  if total = 0 then { s with scroll_position := 0 }
  else
    let visible_lines := if s.viewport_height = 0 then total else min total s.viewport_height
    let max_scroll := total - visible_lines
    if s.scroll_position > max_scroll then { s with scroll_position := max_scroll } else s

/-- `TranscriptionWidgetState::ensure_focus_valid`. -/
def WidgetState.ensure_focus_valid (s : WidgetState) : WidgetState :=
  if s.transcriptions.isEmpty then
    { s with focus := none, scroll_position := 0 }
  else
    let focus := s.focus.getD ⟨s.transcriptions.length - 1, .Message⟩
    let focus :=
      if focus.message_index ≥ s.transcriptions.length then
        { focus with message_index := s.transcriptions.length - 1 }
      else focus
    let focus := { focus with
      segment := s.resolve_segment_for_message focus.message_index focus.segment }
    { s with focus := some focus }

/-- `TranscriptionWidgetState::ensure_focus_visible`. -/
def WidgetState.ensure_focus_visible (s : WidgetState) : WidgetState :=
  if s.viewport_height = 0 then s
  else
    let s := s.ensure_focus_valid
    let s := s.clamp_scroll
    match s.focus with
    | none => s
    | some focus =>
      let total := s.transcriptions.length
      if total = 0 then { s with scroll_position := 0 }
      else
        let visible_lines := min total s.viewport_height
        let max_scroll := total - visible_lines
        let offset_from_bottom := min s.scroll_position max_scroll
        let end_index := total - offset_from_bottom
        let start_index := end_index - visible_lines
        if focus.message_index < start_index then
          let desired_scroll := total - (focus.message_index + visible_lines)
          { s with scroll_position := min desired_scroll max_scroll }
        else if focus.message_index ≥ end_index then
          let desired_scroll := total - (focus.message_index + 1)
          { s with scroll_position := min desired_scroll max_scroll }
        else s

/-- `TranscriptionWidgetState::handle_removed_front`: adjust focus when
the oldest message is removed.  (Note: the Rust function touches only
`focus` and `scroll_position`; the edit state is not adjusted.) -/
def WidgetState.handle_removed_front (s : WidgetState) : WidgetState :=
  match s.focus with
  | none => s
  | some focus =>
    let focus :=
      if focus.message_index > 0 then { focus with message_index := focus.message_index - 1 }
      else focus
    if s.transcriptions.isEmpty then
      { s with focus := none, scroll_position := 0 }
    else
      let focus :=
        if focus.message_index ≥ s.transcriptions.length then
          { focus with message_index := s.transcriptions.length - 1 }
        else focus
      let focus := { focus with
        segment := s.resolve_segment_for_message focus.message_index focus.segment }
      { s with focus := some focus }

/-- `TranscriptionWidgetState::add_transcription`. -/
def WidgetState.add_transcription (s : WidgetState) (message : TranscriptionMessage) :
    WidgetState :=
  let s :=
    if s.transcriptions.length ≥ MAX_TRANSCRIPTIONS then
      let s := { s with transcriptions := s.transcriptions.tail }
      let s := s.handle_removed_front
      s.clamp_scroll
    else s
  let s := { s with transcriptions := s.transcriptions ++ [message] }
  let s := s.ensure_focus_valid
  s.ensure_focus_visible

/-- `TranscriptionWidgetState::focus_prev_row`. -/
def WidgetState.focus_prev_row (s : WidgetState) : WidgetState :=
  if s.transcriptions.isEmpty then s
  else
    let s := s.ensure_focus_valid
    let s :=
      match s.focus with
      | none => s
      | some current =>
        if current.message_index = 0 then
          { s with focus := some ⟨0, s.resolve_segment_for_message 0 current.segment⟩ }
        else
          let new_index := current.message_index - 1
          let seg := s.resolve_segment_for_message new_index current.segment
          { s with focus := some ⟨new_index, seg⟩ }
    s.ensure_focus_visible

/-- `TranscriptionWidgetState::focus_next_row`. -/
def WidgetState.focus_next_row (s : WidgetState) : WidgetState :=
  if s.transcriptions.isEmpty then s
  else
    let s := s.ensure_focus_valid
    let s :=
      match s.focus with
      | none => s
      | some current =>
        let last_index := s.transcriptions.length - 1
        if current.message_index ≥ last_index then
          let seg := s.resolve_segment_for_message last_index current.segment
          { s with focus := some ⟨last_index, seg⟩ }
        else
          let new_index := current.message_index + 1
          let seg := s.resolve_segment_for_message new_index current.segment
          { s with focus := some ⟨new_index, seg⟩ }
    s.ensure_focus_visible

/-- `TranscriptionWidgetState::scroll_up`: moves focus to the previous row. -/
def WidgetState.scroll_up (s : WidgetState) : WidgetState :=
  s.focus_prev_row

/-- `TranscriptionWidgetState::scroll_down`: moves focus to the next row. -/
def WidgetState.scroll_down (s : WidgetState) : WidgetState :=
  s.focus_next_row

/-- `TranscriptionWidgetState::focus_left`. -/
def WidgetState.focus_left (s : WidgetState) : WidgetState :=
  let s := s.ensure_focus_valid
  let s :=
    match s.focus with
    | none => s
    | some focus =>
      if focus.segment = FocusSegment.Message ∧ s.message_has_speaker focus.message_index then
        { s with focus := some ⟨focus.message_index, FocusSegment.Speaker⟩ }
      else s
  s.ensure_focus_visible

/-- `TranscriptionWidgetState::focus_right`. -/
def WidgetState.focus_right (s : WidgetState) : WidgetState :=
  let s := s.ensure_focus_valid
  let s :=
    match s.focus with
    | none => s
    | some focus =>
      if focus.segment = FocusSegment.Speaker then
        { s with focus := some ⟨focus.message_index, FocusSegment.Message⟩ }
      else s
  s.ensure_focus_visible

/-- `TranscriptionWidgetState::update_viewport_height`. -/
def WidgetState.update_viewport_height (s : WidgetState) (height : Nat) : WidgetState :=
  let s := { s with viewport_height := max height 1 }
  let s := s.clamp_scroll
  s.ensure_focus_visible

/-- One user-visible operation on the transcript buffer. -/
inductive BufferOp where
  | add (m : TranscriptionMessage)
  | scrollUp
  | scrollDown
  | focusLeft
  | focusRight
  | setViewport (height : Nat)
deriving DecidableEq, Repr

/-- Apply one buffer operation. -/
def WidgetState.applyOp (s : WidgetState) : BufferOp → WidgetState
  | .add m => s.add_transcription m
  | .scrollUp => s.scroll_up
  | .scrollDown => s.scroll_down
  | .focusLeft => s.focus_left
  | .focusRight => s.focus_right
  | .setViewport h => s.update_viewport_height h

/-- Run a sequence of buffer operations from the fresh state after the
first render has set a (positive) viewport height. -/
def runOps (height : Nat) (ops : List BufferOp) : WidgetState :=
  ops.foldl WidgetState.applyOp (WidgetState.new.update_viewport_height height)

/-- `TranscriptionWidgetState::is_editing`. -/
def WidgetState.is_editing (s : WidgetState) : Bool :=
  s.edit_mode ≠ .None

/-- `TranscriptionWidgetState::start_editing`: snapshots the focused
segment into an edit session with the cursor at the end (byte length of
the snapshot, exactly as `speaker.len()` / `content.len()` in Rust). -/
def WidgetState.start_editing (s : WidgetState) : WidgetState :=
  if s.is_editing then s
  else
    let s := s.ensure_focus_valid
    match s.focus with
    | none => s
    | some focus =>
      match s.transcriptions[focus.message_index]? with
      | none => s
      | some message =>
        match focus.segment with
        | .Speaker =>
          match message.speaker with
          | some speaker =>
            { s with edit_mode :=
                .EditingSpeaker focus.message_index speaker (utf8Len speaker) }
          | none => s
        | .Message =>
          { s with edit_mode :=
              .EditingMessage focus.message_index message.content (utf8Len message.content) }

/-- `TranscriptionWidgetState::handle_char_input`: inserts the typed
character at the byte cursor and advances the cursor by one byte
(`*cursor += 1` in Rust).  A Rust panic in `String::insert` is `none`. -/
def WidgetState.handle_char_input (s : WidgetState) (c : Char) : Option WidgetState :=
  match s.edit_mode with
  | .EditingSpeaker index buffer cursor =>
    (stringInsert buffer cursor c).map fun buffer' =>
      { s with edit_mode := .EditingSpeaker index buffer' (cursor + 1) }
  | .EditingMessage index buffer cursor =>
    (stringInsert buffer cursor c).map fun buffer' =>
      { s with edit_mode := .EditingMessage index buffer' (cursor + 1) }
  | .None => some s

/-- `TranscriptionWidgetState::handle_backspace`: moves the cursor one
byte left and removes the character starting there.  A Rust panic in
`String::remove` is `none`. -/
def WidgetState.handle_backspace (s : WidgetState) : Option WidgetState :=
  match s.edit_mode with
  | .EditingSpeaker index buffer cursor =>
    if cursor > 0 then
      (stringRemove buffer (cursor - 1)).map fun buffer' =>
        { s with edit_mode := .EditingSpeaker index buffer' (cursor - 1) }
    else some s
  | .EditingMessage index buffer cursor =>
    if cursor > 0 then
      (stringRemove buffer (cursor - 1)).map fun buffer' =>
        { s with edit_mode := .EditingMessage index buffer' (cursor - 1) }
    else some s
  | .None => some s

/-- `TranscriptionWidgetState::move_cursor_left`: moves the cursor one
byte to the left. -/
def WidgetState.move_cursor_left (s : WidgetState) : WidgetState :=
  match s.edit_mode with
  | .EditingSpeaker index buffer cursor =>
    if cursor > 0 then { s with edit_mode := .EditingSpeaker index buffer (cursor - 1) }
    else s
  | .EditingMessage index buffer cursor =>
    if cursor > 0 then { s with edit_mode := .EditingMessage index buffer (cursor - 1) }
    else s
  | .None => s

/-- `TranscriptionWidgetState::move_cursor_right`: moves the cursor one
byte to the right, bounded by the byte length of the buffer. -/
def WidgetState.move_cursor_right (s : WidgetState) : WidgetState :=
  match s.edit_mode with
  | .EditingSpeaker index buffer cursor =>
    if cursor < utf8Len buffer then { s with edit_mode := .EditingSpeaker index buffer (cursor + 1) }
    else s
  | .EditingMessage index buffer cursor =>
    if cursor < utf8Len buffer then { s with edit_mode := .EditingMessage index buffer (cursor + 1) }
    else s
  | .None => s

/-- Number of rows shown by the renderer, as computed in
`TranscriptionWidget::render` and `ensure_focus_visible`. -/
def WidgetState.visibleLines (s : WidgetState) : Nat :=
  min s.transcriptions.length s.viewport_height

/-- Maximal scroll offset. -/
def WidgetState.maxScroll (s : WidgetState) : Nat :=
  s.transcriptions.length - s.visibleLines

/-- Exclusive upper end of the visible window of message indices. -/
def WidgetState.windowEnd (s : WidgetState) : Nat :=
  s.transcriptions.length - min s.scroll_position s.maxScroll

/-- Inclusive lower end of the visible window of message indices. -/
def WidgetState.windowStart (s : WidgetState) : Nat :=
  s.windowEnd - s.visibleLines

/-- The focus invariant: the viewport height is positive, the focus is
absent exactly when the buffer is empty, and a present focus denotes a
valid message index lying inside the visible window. -/
def FocusInv (s : WidgetState) : Prop :=
  1 ≤ s.viewport_height ∧
  (s.focus = none ↔ s.transcriptions = []) ∧
  ∀ f, s.focus = some f →
    f.message_index < s.transcriptions.length ∧
    s.windowStart ≤ f.message_index ∧ f.message_index < s.windowEnd

/-- Sample message used in concrete scenarios. -/
def msgA : TranscriptionMessage := ⟨none, none, ['A']⟩

/-- Sample message used in concrete scenarios. -/
def msgB : TranscriptionMessage := ⟨none, none, ['B']⟩

/-- Sample message used in concrete scenarios. -/
def msgC : TranscriptionMessage := ⟨none, none, ['C']⟩

/-- Sample message used in concrete scenarios. -/
def msgD : TranscriptionMessage := ⟨none, none, ['D']⟩

/-- A concrete widget state at full capacity (2000 messages) with an
active edit session targeting message index 1 and focus on index 2. -/
def fullStateEditing : WidgetState :=
  { transcriptions := msgA :: msgB :: List.replicate 1998 msgC
    scroll_position := 0
    focus := some ⟨2, .Message⟩
    viewport_height := 10
    edit_mode := .EditingMessage 1 ['B'] 1 }

end Widgets

namespace Transcribers

/-- Embedding of `TranscriptionResult` (src/transcribers.rs). -/
structure TranscriptionResult where
  transcript : Str
  speaker_id : Option Int
deriving DecidableEq, Repr

/-- One word of a Deepgram transcript alternative: its text and the
diarized speaker id (src/transcribers/deepgram.rs reads `word.word` and
`word.speaker` from the provider response). -/
structure DgWord where
  word : Str
  speaker : Option Int
deriving DecidableEq, Repr

/-- The character test inside `DeepgramTranscriber::is_cjk`: CJK
Unified Ideographs, CJK Extension A, Hiragana, or Katakana. -/
def isCjkChar (c : Char) : Bool :=
  (0x4E00 ≤ c.toNat && c.toNat ≤ 0x9FFF) ||
  (0x3400 ≤ c.toNat && c.toNat ≤ 0x4DBF) ||
  (0x3040 ≤ c.toNat && c.toNat ≤ 0x309F) ||
  (0x30A0 ≤ c.toNat && c.toNat ≤ 0x30FF)

/-- `DeepgramTranscriber::is_cjk`: any character of the text is CJK. -/
def is_cjk (text : Str) : Bool := text.any isCjkChar

/-- The White_Space property used by Rust `char::is_whitespace` (and
hence by `str::trim`). -/
def isRustWhitespace (c : Char) : Bool :=
  c.toNat = 0x20 || c.toNat = 0x09 || c.toNat = 0x0A || c.toNat = 0x0B ||
  c.toNat = 0x0C || c.toNat = 0x0D || c.toNat = 0x85 || c.toNat = 0xA0 ||
  c.toNat = 0x1680 || (0x2000 ≤ c.toNat && c.toNat ≤ 0x200A) ||
  c.toNat = 0x2028 || c.toNat = 0x2029 || c.toNat = 0x202F ||
  c.toNat = 0x205F || c.toNat = 0x3000

/-- Rust `str::trim`. -/
def trimStr (s : Str) : Str :=
  ((s.dropWhile isRustWhitespace).reverse.dropWhile isRustWhitespace).reverse

/-- Loop state of the word loop in `DeepgramTranscriber::format_response`. -/
structure FmtState where
  results : List TranscriptionResult
  current_speaker : Option Int
  speaker_message : Str
  last_was_cjk : Bool
deriving DecidableEq, Repr

/-- One iteration of the word loop in `format_response`: flush on a
speaker change (only when a speaker was already current), then append
the word, separated by one space unless the message is empty or both
neighbours are CJK. -/
def fmtStep (st : FmtState) (w : DgWord) : FmtState :=
  let st :=
    if w.speaker ≠ st.current_speaker then
      match st.current_speaker with
      | some speaker_id =>
        { st with
          results := st.results ++ [⟨trimStr st.speaker_message, some speaker_id⟩]
          speaker_message := []
          last_was_cjk := false
          current_speaker := w.speaker }
      | none => { st with current_speaker := w.speaker }
    else st
  let current_is_cjk := is_cjk w.word
  let msg :=
    if !st.speaker_message.isEmpty && !(st.last_was_cjk && current_is_cjk) then
      st.speaker_message ++ ' ' :: w.word
    else
      st.speaker_message ++ w.word
  { st with speaker_message := msg, last_was_cjk := current_is_cjk }

/-- The flush after the word loop in `format_response`: save the final
speaker's accumulated message, if a speaker is current. -/
def fmtFinalize (st : FmtState) : List TranscriptionResult :=
  match st.current_speaker with
  | some speaker_id => st.results ++ [⟨trimStr st.speaker_message, some speaker_id⟩]
  | none => st.results

/-- `DeepgramTranscriber::format_response` on a `TranscriptResponse`
with a single alternative, given the alternative's word list and its
plain transcript text: run the word loop, flush the final speaker's
accumulation, and fall back to the plain transcript when no speaker
metadata was seen. -/
def format_response (words : List DgWord) (transcript : Str) : List TranscriptionResult :=
  let st := words.foldl fmtStep ⟨[], none, [], false⟩
  let results := fmtFinalize st
  if st.current_speaker.isNone && !transcript.isEmpty then
    results ++ [⟨transcript, none⟩]
  else results

/-- The sentinel text produced by the `TerminalResponse` arm of
`format_response` and filtered by the main loop. -/
def endSentinel : Str := "Transcription stream ended".toList

/-- `format_response` on a `TerminalResponse`: the sentinel event. -/
def format_terminal : List TranscriptionResult := [⟨endSentinel, none⟩]

/-- Spec-side join rule (refinement reference, follows the spec's
words): exactly one space between adjacent words unless both the
preceding and the following token are CJK. -/
def specJoinAux (prevCjk : Bool) : List Str → Str
  | [] => []
  | w :: ws =>
    (if prevCjk && is_cjk w then w else ' ' :: w) ++ specJoinAux (is_cjk w) ws

/-- Spec-side join rule, starting a message with its first word. -/
def specJoin : List Str → Str
  | [] => []
  | w :: ws => w ++ specJoinAux (is_cjk w) ws

/-- Spec-side grouping (refinement reference, follows the spec's
words) for a fully diarized word list: consecutive words sharing a
speaker id form one event, flushed on change and at the end. -/
def specGroupAux (speaker_id : Int) (run : List Str) :
    List DgWord → List TranscriptionResult
  | [] => [⟨trimStr (specJoin run), some speaker_id⟩]
  | w :: ws =>
    if w.speaker = some speaker_id then specGroupAux speaker_id (run ++ [w.word]) ws
    else
      ⟨trimStr (specJoin run), some speaker_id⟩ ::
        specGroupAux (w.speaker.getD 0) [w.word] ws

/-- Spec-side grouping of a fully diarized word list. -/
def specGroup : List DgWord → List TranscriptionResult
  | [] => []
  | w :: ws => specGroupAux (w.speaker.getD 0) [w.word] ws

/-- The CJK flag of the last word of a chain whose previous flag was
`prevCjk` (helper for reasoning about `specJoinAux`). -/
def chainLast (prevCjk : Bool) (ws : List Str) : Bool :=
  match ws.getLast? with
  | some w => is_cjk w
  | none => prevCjk

/-- The main loop's transcript drain (src/main.rs): each received
result is appended to the transcript widget unless its text equals the
sentinel literally; the speaker label is resolved from the speaker id. -/
def mainLoopDrain (get_speaker_name : Int → Str) (results : List TranscriptionResult) :
    List Widgets.TranscriptionMessage :=
  results.foldl
    (fun acc r =>
      if r.transcript ≠ endSentinel then
        acc ++ [⟨r.speaker_id.map get_speaker_name, r.speaker_id, r.transcript⟩]
      else acc)
    []

/-- The claim's concrete CJK example: tokens 你, 好, world with one
speaker. -/
def cjkWords : List DgWord :=
  [⟨['你'], some 0⟩, ⟨['好'], some 0⟩, ⟨['w', 'o', 'r', 'l', 'd'], some 0⟩]

/-- A mixed-metadata word list: one diarized word followed by one word
without a speaker id. -/
def mixedWords : List DgWord := [⟨['a'], some 0⟩, ⟨['b'], none⟩]

end Transcribers

namespace Config

/-- Embedding of `SelectOption` (src/config.rs). -/
structure SelectOption where
  value : String
  label : String
deriving DecidableEq, Repr

/-- The `ConfigField::Select` metadata of one select entry. -/
structure SelectField where
  default : String
  options : List SelectOption
deriving DecidableEq, Repr

/-- The state of one select entry of the `ConfigManager`: its schema
field (mutable through `update_select_options`) plus the stored value
for its key in `values`, if any.  All `ConfigManager` select operations
touch only the addressed key, so this per-key projection is faithful. -/
structure SelectState where
  field : SelectField
  stored : Option String
deriving DecidableEq, Repr

/-- `ConfigManager::select_value` projected to one select entry (the
`UnknownKey`/`TypeMismatch` errors cannot occur for an existing select
key, so the projection is total). -/
def select_value (s : SelectState) : String :=
  let value := s.stored.getD s.field.default
  if s.field.options.any (fun opt => opt.value == value) then value else s.field.default

/-- `ConfigManager::set_select` projected to one select entry.  The
`Err(ValidationFailed)` case is `Except.error`; persistence is modelled
as succeeding, and the returned flag (Rust `Ok(changed)`) records
whether a persistence write happened. -/
def set_select (s : SelectState) (value : String) : Except Unit (SelectState × Bool) :=
  if ¬ s.field.options.any (fun opt => opt.value == value) then .error ()
  else
    let current := s.stored.getD s.field.default
    if current = value then .ok (s, false)
    else
      let stored := if value = s.field.default then none else some value
      .ok ({ s with stored := stored }, true)

/-- `ConfigManager::cycle_select` projected to one select entry.
Rust's `%` on `isize` is truncated remainder, i.e. `Int.tmod`; the
(unreachable) out-of-bounds panic on the final indexing is modelled as
an error. -/
def cycle_select (s : SelectState) (direction : Int) : Except Unit (SelectState × Bool) :=
  if s.field.options.isEmpty then .ok (s, false)
  else
    let current := select_value s
    let len : Int := s.field.options.length
    let current_index : Int :=
      match s.field.options.findIdx? (fun opt => opt.value == current) with
      | some i => (i : Int)
      | none => 0
    let next_index := ((current_index + direction).tmod len + len).tmod len
    match s.field.options[next_index.toNat]? with
    | some opt => set_select s opt.value
    | none => .error ()

/-- `update_select_options_in_group` followed by the value fix-up of
`ConfigManager::update_select_options`, projected to one existing
select entry. -/
def update_select_options (s : SelectState) (options : List SelectOption)
    (default : Option String) : Except Unit SelectState :=
  let entry_default :=
    match default with
    | some default_value => default_value
    | none =>
      if options.any (fun opt => opt.value == s.field.default) then s.field.default
      else
        match options.head? with
        | some first => first.value
        | none => s.field.default
  let s : SelectState := { field := ⟨entry_default, options⟩, stored := s.stored }
  if options.isEmpty then .ok { s with stored := none }
  else
    let stored_valid :=
      match s.stored with
      | some v => if options.any (fun opt => opt.value == v) then some v else none
      | none => none
    let effective :=
      match stored_valid with
      | some v => v
      | none =>
        match default with
        | some d => d
        | none =>
          match options.head? with
          | some opt => opt.value
          | none => ""
    (set_select s effective).map (fun p => p.1)

/-- Validity of a reachable select entry: nonempty option list with
pairwise-distinct values, default among the option values, stored value
(when present) among the option values.  Every select entry of the
shipped schema satisfies this, and the operations preserve it. -/
def SelectInv (s : SelectState) : Prop :=
  s.field.options ≠ [] ∧
  (s.field.options.map (fun opt => opt.value)).Nodup ∧
  (∃ opt ∈ s.field.options, opt.value = s.field.default) ∧
  ∀ v, s.stored = some v → ∃ opt ∈ s.field.options, opt.value = v

/-- A select operation issued by the settings UI. -/
inductive SelectOp where
  | setSel (value : String)
  | cycleSel (direction : Int)

/-- Run one select operation; an `Err` result leaves the state
unchanged and performs no write. -/
def runSelectOp (s : SelectState) : SelectOp → SelectState × Bool
  | .setSel v =>
    match set_select s v with
    | .ok p => p
    | .error _ => (s, false)
  | .cycleSel d =>
    match cycle_select s d with
    | .ok p => p
    | .error _ => (s, false)

/-- Run a sequence of select operations, counting persistence writes. -/
def runSelectOps (s : SelectState) : List SelectOp → SelectState × Nat
  | [] => (s, 0)
  | op :: ops =>
    let p := runSelectOp s op
    let q := runSelectOps p.1 ops
    (q.1, (if p.2 then 1 else 0) + q.2)

/-- Count of genuine (observable) value changes along a run. -/
def countChanges (s : SelectState) : List SelectOp → Nat
  | [] => 0
  | op :: ops =>
    let s' := (runSelectOp s op).1
    (if select_value s' ≠ select_value s then 1 else 0) + countChanges s' ops

/-- One cycle step in a given direction as a total state map (the error
case, unreachable on a valid entry, leaves the state unchanged). -/
def cycleStep (direction : Int) (s : SelectState) : SelectState :=
  (runSelectOp s (.cycleSel direction)).1

/-- The option value reached from value `v` by one cycle step in
direction `d` (analysis function mirroring the index arithmetic of
`cycle_select`; on a valid entry `cycle_select` moves the observable
value along this function). -/
def nextVal (F : SelectField) (direction : Int) (v : String) : String :=
  let len : Int := F.options.length
  let current_index : Int :=
    match F.options.findIdx? (fun opt => opt.value == v) with
    | some i => (i : Int)
    | none => 0
  let next_index := ((current_index + direction).tmod len + len).tmod len
  match F.options[next_index.toNat]? with
  | some opt => opt.value
  | none => v

/-- The accent-color select entry of the shipped default schema
(src/config.rs, `default_schema`), with no stored override. -/
def accentState : SelectState :=
  { field :=
      { default := "blue"
        options :=
          [⟨"blue", "Ocean Blue"⟩, ⟨"cyan", "Clear Cyan"⟩, ⟨"magenta", "Vibrant Magenta"⟩,
            ⟨"amber", "Warm Amber"⟩, ⟨"green", "Bright Green"⟩] }
    stored := none }

end Config

namespace Audio

/-- `list_audio_devices` (src/audio.rs) over the outcome of the host's
device enumeration (the `cpal` boundary is the parameter): an
enumeration failure propagates as an error, and an empty device list
yields `Err("No input devices found")`. -/
def list_audio_devices (host : Except Unit (List String)) : Except String (List String) :=
  match host with
  | .error _ => .error "enumeration failed"
  | .ok devices =>
    if devices.isEmpty then .error "No input devices found" else .ok devices

/-- `AppState::resolve_audio_device` (src/state.rs) projected to the
`audio.input.device` select entry (the only key it touches).  It never
fails: warnings are printed and `Err` results of the config calls are
ignored in the source, so an (unreachable) config error leaves the
config unchanged here. -/
def resolve_audio_device (config : Config.SelectState)
    (host : Except Unit (List String)) : Config.SelectState × Nat × String :=
  match list_audio_devices host with
  | .ok devices =>
    if devices.isEmpty then
      let placeholder_value := "__no_devices__"
      let options := [Config.SelectOption.mk placeholder_value "No input devices detected"]
      let config :=
        match Config.update_select_options config options (some placeholder_value) with
        | .ok c => c
        | .error _ => config
      (config, 0, "Unknown Device")
    else
      let new_options := devices.map (fun name => Config.SelectOption.mk name name)
      let default_candidate := new_options.head?.map (fun opt => opt.value)
      let needs_option_refresh :=
        (config.field.options.length != new_options.length) ||
        ((config.field.options.zip new_options).any
          (fun p => p.1.value != p.2.value || p.1.label != p.2.label)) ||
        (match default_candidate with
         | some default_value => default_value != config.field.default
         | none => false)
      let config :=
        if needs_option_refresh then
          match Config.update_select_options config new_options default_candidate with
          | .ok c => c
          | .error _ => config
        else config
      let desired := Config.select_value config
      match devices.findIdx? (fun name => name == desired) with
      | some index => (config, index, desired)
      | none =>
        let fallback := devices.headD ""
        let config :=
          match Config.set_select config fallback with
          | .ok p => p.1
          | .error _ => config
        (config, 0, fallback)
  | .error _ =>
    let placeholder_value := "__no_devices__"
    let options := [Config.SelectOption.mk placeholder_value "Audio device enumeration failed"]
    let config :=
      match Config.update_select_options config options (some placeholder_value) with
      | .ok c => c
      | .error _ => config
    (config, 0, "Unknown Device")

/-- A device select entry as built by the shipped schema when one
device named mic0 is present. -/
def deviceCfgSample : Config.SelectState :=
  { field := { default := "mic0", options := [⟨"mic0", "mic0"⟩] }, stored := none }

end Audio

namespace Worker

/-- Micro-steps of the capture worker lifecycle performed by
`AudioCaptureWorker` (src/main.rs): `spawnStep` starts a worker thread
(`Self::spawn`); `stopJoin` is `stop` — take the handle, set the stop
flag, and join, blocking until the thread has exited (a no-op when no
handle is held). -/
inductive MicroStep where
  | spawnStep
  | stopJoin
deriving DecidableEq, Repr

/-- Tracked lifecycle state: the number of capture worker threads alive
(spawned and not yet joined or exited — an early thread exit only
lowers the real count below this bound) and whether the
`AudioCaptureWorker` holds a thread handle. -/
structure WorkerSys where
  alive : Nat
  handle : Bool
deriving DecidableEq, Repr

/-- Effect of one micro-step. -/
def microStep (s : WorkerSys) : MicroStep → WorkerSys
  | .spawnStep => { alive := s.alive + 1, handle := true }
  | .stopJoin => if s.handle then { alive := s.alive - 1, handle := false } else s

/-- High-level worker operations issued by the main loop after the
initial spawn. -/
inductive WorkerOp where
  | restart
  | stop
deriving DecidableEq, Repr

/-- `AudioCaptureWorker::restart` is `self.stop()` — which joins the
outgoing thread — followed by `Self::spawn`; `stop` alone just joins. -/
def expandOp : WorkerOp → List MicroStep
  | .restart => [.stopJoin, .spawnStep]
  | .stop => [.stopJoin]

/-- Every state passed through while executing a micro-step list. -/
def microTrace (s : WorkerSys) : List MicroStep → List WorkerSys
  | [] => [s]
  | m :: ms => s :: microTrace (microStep s m) ms

/-- All states of the program's worker lifecycle: the initial state,
the initial spawn performed by `main`, then the expansion of the
high-level operations in order. -/
def workerStates (ops : List WorkerOp) : List WorkerSys :=
  microTrace ⟨0, false⟩ (MicroStep.spawnStep :: (ops.map expandOp).flatten)

end Worker

end Fortis

namespace Fortis.Widgets

theorem clamp_scroll_transcriptions (s : WidgetState) :
    s.clamp_scroll.transcriptions = s.transcriptions := by
  unfold WidgetState.clamp_scroll
  dsimp only
  repeat' split
  all_goals rfl

theorem clamp_scroll_edit_mode (s : WidgetState) :
    s.clamp_scroll.edit_mode = s.edit_mode := by
  unfold WidgetState.clamp_scroll
  dsimp only
  repeat' split
  all_goals rfl

theorem clamp_scroll_viewport (s : WidgetState) :
    s.clamp_scroll.viewport_height = s.viewport_height := by
  unfold WidgetState.clamp_scroll
  dsimp only
  repeat' split
  all_goals rfl

theorem ensure_focus_valid_transcriptions (s : WidgetState) :
    s.ensure_focus_valid.transcriptions = s.transcriptions := by
  unfold WidgetState.ensure_focus_valid
  dsimp only
  repeat' split
  all_goals rfl

theorem ensure_focus_valid_edit_mode (s : WidgetState) :
    s.ensure_focus_valid.edit_mode = s.edit_mode := by
  unfold WidgetState.ensure_focus_valid
  dsimp only
  repeat' split
  all_goals rfl

theorem ensure_focus_valid_viewport (s : WidgetState) :
    s.ensure_focus_valid.viewport_height = s.viewport_height := by
  unfold WidgetState.ensure_focus_valid
  dsimp only
  repeat' split
  all_goals rfl

theorem ensure_focus_visible_transcriptions (s : WidgetState) :
    s.ensure_focus_visible.transcriptions = s.transcriptions := by
  unfold WidgetState.ensure_focus_visible
  dsimp only
  repeat' split
  all_goals first
    | rfl
    | rw [show s.ensure_focus_valid.clamp_scroll.transcriptions = s.transcriptions from
        (clamp_scroll_transcriptions _).trans (ensure_focus_valid_transcriptions _)]

theorem ensure_focus_visible_edit_mode (s : WidgetState) :
    s.ensure_focus_visible.edit_mode = s.edit_mode := by
  unfold WidgetState.ensure_focus_visible
  dsimp only
  repeat' split
  all_goals first
    | rfl
    | rw [show s.ensure_focus_valid.clamp_scroll.edit_mode = s.edit_mode from
        (clamp_scroll_edit_mode _).trans (ensure_focus_valid_edit_mode _)]

theorem ensure_focus_visible_viewport (s : WidgetState) :
    s.ensure_focus_visible.viewport_height = s.viewport_height := by
  unfold WidgetState.ensure_focus_visible
  dsimp only
  repeat' split
  all_goals first
    | rfl
    | rw [show s.ensure_focus_valid.clamp_scroll.viewport_height = s.viewport_height from
        (clamp_scroll_viewport _).trans (ensure_focus_valid_viewport _)]

theorem handle_removed_front_transcriptions (s : WidgetState) :
    s.handle_removed_front.transcriptions = s.transcriptions := by
  unfold WidgetState.handle_removed_front
  dsimp only
  repeat' split
  all_goals rfl

theorem handle_removed_front_edit_mode (s : WidgetState) :
    s.handle_removed_front.edit_mode = s.edit_mode := by
  unfold WidgetState.handle_removed_front
  dsimp only
  repeat' split
  all_goals rfl

theorem handle_removed_front_viewport (s : WidgetState) :
    s.handle_removed_front.viewport_height = s.viewport_height := by
  unfold WidgetState.handle_removed_front
  dsimp only
  repeat' split
  all_goals rfl

/-- Appending one message maps the stored list through an
evict-then-push step. -/
theorem add_transcription_transcriptions (s : WidgetState) (m : TranscriptionMessage) :
    (s.add_transcription m).transcriptions =
      (if s.transcriptions.length >= MAX_TRANSCRIPTIONS then s.transcriptions.tail
       else s.transcriptions) ++ [m] := by
  unfold WidgetState.add_transcription
  simp only [ensure_focus_visible_transcriptions, ensure_focus_valid_transcriptions]
  split
  . simp only [clamp_scroll_transcriptions, handle_removed_front_transcriptions]
  . rfl

/-- Appending never touches the edit state. -/
theorem add_transcription_edit_mode (s : WidgetState) (m : TranscriptionMessage) :
    (s.add_transcription m).edit_mode = s.edit_mode := by
  unfold WidgetState.add_transcription
  simp only [ensure_focus_visible_edit_mode, ensure_focus_valid_edit_mode]
  split
  . simp only [clamp_scroll_edit_mode, handle_removed_front_edit_mode]
  . rfl

theorem add_transcription_viewport (s : WidgetState) (m : TranscriptionMessage) :
    (s.add_transcription m).viewport_height = s.viewport_height := by
  unfold WidgetState.add_transcription
  simp only [ensure_focus_visible_viewport, ensure_focus_valid_viewport]
  split
  . simp only [clamp_scroll_viewport, handle_removed_front_viewport]
  . rfl

/-- The pure evict-then-push step performed on the stored list by one append. -/
def evictPush (l : List TranscriptionMessage) (m : TranscriptionMessage) :
    List TranscriptionMessage :=
  (if l.length >= MAX_TRANSCRIPTIONS then l.tail else l) ++ [m]

theorem foldl_add_transcriptions (ms : List TranscriptionMessage) (s : WidgetState) :
    (ms.foldl WidgetState.add_transcription s).transcriptions =
      ms.foldl evictPush s.transcriptions := by
  induction ms generalizing s with
  | nil => rfl
  | cons m ms ih =>
    simp only [List.foldl_cons]
    rw [ih, add_transcription_transcriptions]
    rfl

theorem foldl_evictPush_nil (ms : List TranscriptionMessage) :
    ms.foldl evictPush [] = ms.drop (ms.length - MAX_TRANSCRIPTIONS) := by
  induction ms using List.reverseRecOn with
  | nil => rfl
  | append_singleton ms m ih =>
    rw [List.foldl_append, List.foldl_cons, List.foldl_nil, ih]
    unfold evictPush
    have hM : MAX_TRANSCRIPTIONS = 2000 := rfl
    have hlen : (ms.drop (ms.length - MAX_TRANSCRIPTIONS)).length =
        ms.length - (ms.length - MAX_TRANSCRIPTIONS) := List.length_drop _ _
    by_cases h : ms.length >= MAX_TRANSCRIPTIONS
    . have hc : (ms.drop (ms.length - MAX_TRANSCRIPTIONS)).length >= MAX_TRANSCRIPTIONS := by
        omega
      rw [if_pos hc, List.tail_drop]
      rw [List.length_append, List.length_cons, List.length_nil]
      rw [List.drop_append_of_le_length (by omega)]
      have hidx : ms.length - MAX_TRANSCRIPTIONS + 1 = ms.length + 1 - MAX_TRANSCRIPTIONS := by
        omega
      rw [hidx]
    . have hc : ¬ (ms.drop (ms.length - MAX_TRANSCRIPTIONS)).length >= MAX_TRANSCRIPTIONS := by
        omega
      rw [if_neg hc]
      rw [List.length_append, List.length_cons, List.length_nil]
      have h0 : ms.length - MAX_TRANSCRIPTIONS = 0 := by omega
      have h1 : ms.length + 1 - MAX_TRANSCRIPTIONS = 0 := by omega
      rw [h0, h1, List.drop_zero, List.drop_zero]

/-- C1: for every sequence of `add_transcription` calls starting from the
fresh widget state, the buffer never holds more than
`MAX_TRANSCRIPTIONS` (2000) messages, and the retained messages are
exactly the most recent ones in arrival order (the oldest evicted
first). -/
theorem buffer_bounded_fifo (ms : List TranscriptionMessage) :
    (ms.foldl WidgetState.add_transcription WidgetState.new).transcriptions =
      ms.drop (ms.length - MAX_TRANSCRIPTIONS) ∧
    (ms.foldl WidgetState.add_transcription WidgetState.new).transcriptions.length <=
      MAX_TRANSCRIPTIONS := by
  have h : (ms.foldl WidgetState.add_transcription WidgetState.new).transcriptions =
      ms.drop (ms.length - MAX_TRANSCRIPTIONS) := by
    rw [foldl_add_transcriptions]
    exact foldl_evictPush_nil ms
  refine ⟨h, ?_⟩
  rw [h, List.length_drop]
  have : MAX_TRANSCRIPTIONS = 2000 := rfl
  omega

theorem clamp_scroll_focus (s : WidgetState) : s.clamp_scroll.focus = s.focus := by
  unfold WidgetState.clamp_scroll
  dsimp only
  repeat' split
  all_goals rfl

theorem ensure_focus_valid_focus_of_valid (s : WidgetState) (i : Nat) (seg : FocusSegment)
    (hf : s.focus = some ⟨i, seg⟩) (hi : i < s.transcriptions.length) :
    s.ensure_focus_valid.focus = some ⟨i, s.resolve_segment_for_message i seg⟩ := by
  unfold WidgetState.ensure_focus_valid
  have hne : s.transcriptions.isEmpty = false := by
    cases h : s.transcriptions with
    | nil => rw [h] at hi; simp at hi
    | cons a l => rfl
  simp only [hne, hf, Option.getD_some, Bool.false_eq_true, if_false]
  rw [if_neg (by simp only [ge_iff_le]; omega)]

theorem ensure_focus_visible_focus_index (s : WidgetState) (i : Nat) (seg : FocusSegment)
    (hf : s.focus = some ⟨i, seg⟩) (hi : i < s.transcriptions.length) :
    s.ensure_focus_visible.focus.map (·.message_index) = some i := by
  unfold WidgetState.ensure_focus_visible
  split
  · rw [hf]; rfl
  · have h1 := ensure_focus_valid_focus_of_valid s i seg hf hi
    have h2 : s.ensure_focus_valid.clamp_scroll.focus =
        some ⟨i, s.resolve_segment_for_message i seg⟩ := by
      rw [clamp_scroll_focus, h1]
    dsimp only
    rw [h2]
    dsimp only
    repeat' split
    all_goals simp [h2]

theorem handle_removed_front_focus_index (s : WidgetState) (i : Nat) (seg : FocusSegment)
    (hf : s.focus = some ⟨i, seg⟩) (hne : s.transcriptions ≠ [])
    (hi : i - 1 < s.transcriptions.length) :
    s.handle_removed_front.focus.map (·.message_index) = some (i - 1) := by
  unfold WidgetState.handle_removed_front
  rw [hf]
  have hne' : s.transcriptions.isEmpty = false := by
    cases h : s.transcriptions with
    | nil => exact absurd h hne
    | cons a l => rfl
  dsimp only
  simp only [hne', Bool.false_eq_true, if_false]
  split
  · rw [if_neg (by simp only [ge_iff_le]; omega)]
    rfl
  · have h0 : i = 0 := by omega
    subst h0
    rw [if_neg (by simp only [ge_iff_le]; omega)]
    rfl

/-- C2 counterexample: at full capacity with an active edit session
targeting index 1, appending a message evicts index 0 but leaves the
edit-session target at index 1, which now denotes a different message
than before the eviction — the edit-target reference is not decremented
as the claim states. -/
theorem eviction_does_not_shift_edit_target :
    (fullStateEditing.add_transcription msgD).edit_mode = .EditingMessage 1 ['B'] 1 ∧
    fullStateEditing.transcriptions[1]? = some msgB ∧
    (fullStateEditing.add_transcription msgD).transcriptions[1]? = some msgC ∧
    msgB ≠ msgC := by
  refine ⟨?_, ?_, ?_, by decide⟩
  · rw [add_transcription_edit_mode]; rfl
  · show (msgA :: msgB :: List.replicate 1998 msgC)[1]? = some msgB
    rw [List.getElem?_cons, if_neg (by norm_num), show (1 : Nat) - 1 = 0 from rfl,
      List.getElem?_cons_zero]
  · rw [add_transcription_transcriptions]
    have hlen : fullStateEditing.transcriptions.length ≥ MAX_TRANSCRIPTIONS := by
      show (msgA :: msgB :: List.replicate 1998 msgC).length ≥ MAX_TRANSCRIPTIONS
      rw [List.length_cons, List.length_cons, List.length_replicate]
      decide
    rw [if_pos hlen]
    show ((msgB :: List.replicate 1998 msgC) ++ [msgD])[1]? = some msgC
    rw [List.cons_append, List.getElem?_cons, if_neg (by norm_num),
      show (1 : Nat) - 1 = 0 from rfl,
      List.getElem?_append_left (by rw [List.length_replicate]; norm_num),
      List.getElem?_replicate_of_lt (by norm_num)]

/-- C2 amended: when `add_transcription` evicts at capacity, the focus
index is decremented by one (an index that would go negative is clamped
to 0), and a focus not at index 0 keeps denoting the same message; the
edit-session target index, however, is left unchanged by the eviction
(it is not decremented). -/
theorem eviction_shifts_focus_only (s : WidgetState) (m : TranscriptionMessage)
    (i : Nat) (seg : FocusSegment)
    (hcap : s.transcriptions.length ≥ MAX_TRANSCRIPTIONS)
    (hf : s.focus = some ⟨i, seg⟩) (hi : i < s.transcriptions.length) :
    (s.add_transcription m).focus.map (·.message_index) = some (i - 1) ∧
    (0 < i → (s.add_transcription m).transcriptions[i - 1]? = s.transcriptions[i]?) ∧
    (s.add_transcription m).edit_mode = s.edit_mode := by
  have hM : MAX_TRANSCRIPTIONS = 2000 := rfl
  have htrans := add_transcription_transcriptions s m
  rw [if_pos hcap] at htrans
  have htail_len : s.transcriptions.tail.length = s.transcriptions.length - 1 :=
    List.length_tail _
  refine ⟨?_, ?_, add_transcription_edit_mode s m⟩
  · -- track the focus through the five steps of add_transcription
    unfold WidgetState.add_transcription
    rw [if_pos hcap]
    set s1 : WidgetState := { s with transcriptions := s.transcriptions.tail } with hs1
    have hs1f : s1.focus = some ⟨i, seg⟩ := hf
    have hs1ne : s1.transcriptions ≠ [] := by
      show s.transcriptions.tail ≠ []
      have : s.transcriptions.tail.length ≠ 0 := by omega
      exact fun hnil => this (by rw [hnil]; rfl)
    have hs1i : i - 1 < s1.transcriptions.length := by
      show i - 1 < s.transcriptions.tail.length
      omega
    have h2 := handle_removed_front_focus_index s1 i seg hs1f hs1ne hs1i
    obtain ⟨f2, hf2, hf2i⟩ : ∃ f2, s1.handle_removed_front.focus = some f2 ∧
        f2.message_index = i - 1 := by
      cases hx : s1.handle_removed_front.focus with
      | none => rw [hx] at h2; simp at h2
      | some f2 => rw [hx] at h2; exact ⟨f2, rfl, by simpa using h2⟩
    set s2 := s1.handle_removed_front.clamp_scroll with hs2
    have hs2f : s2.focus = some f2 := by rw [hs2, clamp_scroll_focus, hf2]
    have hs2t : s2.transcriptions = s.transcriptions.tail := by
      rw [hs2, clamp_scroll_transcriptions, handle_removed_front_transcriptions]
    set s3 : WidgetState := { s2 with transcriptions := s2.transcriptions ++ [m] } with hs3
    have hs3f : s3.focus = some ⟨f2.message_index, f2.segment⟩ := hs2f
    have hs3i : f2.message_index < s3.transcriptions.length := by
      show f2.message_index < (s2.transcriptions ++ [m]).length
      rw [List.length_append, hs2t]
      simp only [List.length_cons, List.length_nil]
      omega
    have h4 := ensure_focus_valid_focus_of_valid s3 f2.message_index f2.segment hs3f hs3i
    have h5 := ensure_focus_visible_focus_index s3.ensure_focus_valid f2.message_index
      (s3.resolve_segment_for_message f2.message_index f2.segment) h4
      (by rw [ensure_focus_valid_transcriptions]; exact hs3i)
    rw [hf2i] at h5
    exact h5
  · intro hpos
    rw [htrans]
    have hidx : i - 1 < s.transcriptions.tail.length := by omega
    rw [List.getElem?_append_left hidx, List.getElem?_tail]
    have : i - 1 + 1 = i := by omega
    rw [this]

/-- Witness for `eviction_shifts_focus_only` at a concrete full-capacity
state with focus on index 2. -/
theorem eviction_shifts_focus_only_witness :
    (fullStateEditing.add_transcription msgD).focus.map (·.message_index) = some 1 ∧
    (fullStateEditing.add_transcription msgD).edit_mode = fullStateEditing.edit_mode := by
  have hcap : fullStateEditing.transcriptions.length ≥ MAX_TRANSCRIPTIONS := by
    show (msgA :: msgB :: List.replicate 1998 msgC).length ≥ MAX_TRANSCRIPTIONS
    rw [List.length_cons, List.length_cons, List.length_replicate]
    decide
  have hi : (2 : Nat) < fullStateEditing.transcriptions.length := by
    show (2 : Nat) < (msgA :: msgB :: List.replicate 1998 msgC).length
    rw [List.length_cons, List.length_cons, List.length_replicate]
    decide
  have h := eviction_shifts_focus_only fullStateEditing msgD 2 FocusSegment.Message hcap rfl hi
  exact ⟨h.1, h.2.2⟩

theorem ensure_focus_valid_of_empty (s : WidgetState) (h : s.transcriptions = []) :
    s.ensure_focus_valid = { s with focus := none, scroll_position := 0 } := by
  unfold WidgetState.ensure_focus_valid
  have : s.transcriptions.isEmpty = true := by rw [h]; rfl
  rw [this]
  rfl

theorem ensure_focus_valid_some (s : WidgetState) (hne : s.transcriptions ≠ []) :
    ∃ f, s.ensure_focus_valid.focus = some f ∧
      f.message_index < s.transcriptions.length := by
  have hlen : 0 < s.transcriptions.length := List.length_pos.mpr hne
  have hemp : s.transcriptions.isEmpty = false := by
    cases h : s.transcriptions with
    | nil => exact absurd h hne
    | cons a l => rfl
  unfold WidgetState.ensure_focus_valid
  rw [if_neg (by simp [hemp])]
  dsimp only
  split
  · refine ⟨_, rfl, ?_⟩
    dsimp only
    omega
  · rename_i hnotge
    refine ⟨_, rfl, ?_⟩
    dsimp only
    omega

theorem clamp_scroll_scroll_le (s : WidgetState) (hne : s.transcriptions ≠ [])
    (hvh : s.viewport_height ≠ 0) :
    s.clamp_scroll.scroll_position ≤
      s.transcriptions.length - min s.transcriptions.length s.viewport_height := by
  have hlen : 0 < s.transcriptions.length := List.length_pos.mpr hne
  unfold WidgetState.clamp_scroll
  dsimp only
  rw [if_neg (by omega), if_neg hvh]
  split
  · exact le_refl _
  · rename_i hle
    simp only [gt_iff_lt, not_lt] at hle
    exact hle

theorem ensure_focus_visible_of_empty (s : WidgetState) (h : s.transcriptions = [])
    (hvh : s.viewport_height ≠ 0) :
    s.ensure_focus_visible = { s with focus := none, scroll_position := 0 } := by
  unfold WidgetState.ensure_focus_visible
  rw [if_neg hvh]
  dsimp only
  rw [ensure_focus_valid_of_empty s h]
  unfold WidgetState.clamp_scroll
  dsimp only
  rw [if_pos (by rw [h]; rfl)]

/-- After `ensure_focus_visible` on a nonempty buffer with a positive
viewport height, the focus exists, is a valid index, and lies inside
the visible window of the resulting state. -/
theorem ensure_focus_visible_inv (s : WidgetState) (hvh : s.viewport_height ≠ 0)
    (hne : s.transcriptions ≠ []) :
    ∃ f, s.ensure_focus_visible.focus = some f ∧
      f.message_index < s.ensure_focus_visible.transcriptions.length ∧
      s.ensure_focus_visible.windowStart ≤ f.message_index ∧
      f.message_index < s.ensure_focus_visible.windowEnd := by
  obtain ⟨f1, hf1, hf1i⟩ := ensure_focus_valid_some s hne
  have hlen : 0 < s.transcriptions.length := List.length_pos.mpr hne
  unfold WidgetState.ensure_focus_visible
  rw [if_neg hvh]
  dsimp only
  set s2 := s.ensure_focus_valid.clamp_scroll with hs2def
  have hs2f : s2.focus = some f1 := by rw [hs2def, clamp_scroll_focus, hf1]
  have hs2t : s2.transcriptions = s.transcriptions := by
    rw [hs2def, clamp_scroll_transcriptions, ensure_focus_valid_transcriptions]
  have hs2v : s2.viewport_height = s.viewport_height := by
    rw [hs2def, clamp_scroll_viewport, ensure_focus_valid_viewport]
  have hscr : s2.scroll_position ≤
      s.transcriptions.length - min s.transcriptions.length s.viewport_height := by
    rw [hs2def]
    have h1 := clamp_scroll_scroll_le s.ensure_focus_valid
      (by rw [ensure_focus_valid_transcriptions]; exact hne)
      (by rw [ensure_focus_valid_viewport]; exact hvh)
    rw [ensure_focus_valid_transcriptions, ensure_focus_valid_viewport] at h1
    exact h1
  rw [hs2f]
  dsimp only
  rw [if_neg (by rw [hs2t]; omega)]
  simp only [hs2t, hs2v]
  split
  · -- focus was above the window: scroll so the window starts at the focus
    refine ⟨f1, rfl, ?_, ?_, ?_⟩ <;>
      simp only [WidgetState.windowStart, WidgetState.windowEnd, WidgetState.maxScroll,
        WidgetState.visibleLines, hs2t, hs2v] <;>
      omega
  · split
    · -- focus was below the window: scroll so the window ends just after it
      rename_i hnotlt hge
      simp only [not_lt] at hnotlt
      simp only [ge_iff_le] at hge
      refine ⟨f1, rfl, ?_, ?_, ?_⟩ <;>
        simp only [WidgetState.windowStart, WidgetState.windowEnd, WidgetState.maxScroll,
          WidgetState.visibleLines, hs2t, hs2v] <;>
        omega
    · -- focus already visible: state unchanged
      rename_i hnotlt hnotge
      simp only [not_lt] at hnotlt
      simp only [ge_iff_le, not_le] at hnotge
      refine ⟨f1, hs2f, ?_, ?_, ?_⟩ <;>
        simp only [WidgetState.windowStart, WidgetState.windowEnd, WidgetState.maxScroll,
          WidgetState.visibleLines, hs2t, hs2v] <;>
        omega

/-- Any state whose viewport height is positive satisfies the focus
invariant right after `ensure_focus_visible`. -/
theorem focusInv_of_ensure_focus_visible (s : WidgetState)
    (hvh : 1 ≤ s.viewport_height) : FocusInv s.ensure_focus_visible := by
  by_cases hne : s.transcriptions = []
  · rw [ensure_focus_visible_of_empty s hne (by omega)]
    refine ⟨by dsimp only; omega, ?_, ?_⟩
    · simp [hne]
    · intro f hf
      simp at hf
  · obtain ⟨f, hf, hfi, hws, hwe⟩ := ensure_focus_visible_inv s (by omega) hne
    refine ⟨?_, ?_, ?_⟩
    · rw [ensure_focus_visible_viewport]
      exact hvh
    · constructor
      · intro h
        rw [h] at hf
        cases hf
      · intro h
        rw [ensure_focus_visible_transcriptions] at h
        exact absurd h hne
    · intro f' hf'
      rw [hf] at hf'
      cases hf'
      exact ⟨hfi, hws, hwe⟩

theorem focusInv_add (s : WidgetState) (m : TranscriptionMessage)
    (h : FocusInv s) : FocusInv (s.add_transcription m) := by
  unfold WidgetState.add_transcription
  dsimp only
  apply focusInv_of_ensure_focus_visible
  rw [ensure_focus_valid_viewport]
  dsimp only
  split
  · rw [clamp_scroll_viewport, handle_removed_front_viewport]
    exact h.1
  · exact h.1

theorem focusInv_scroll_up (s : WidgetState) (h : FocusInv s) : FocusInv s.scroll_up := by
  unfold WidgetState.scroll_up WidgetState.focus_prev_row
  split
  · exact h
  · dsimp only
    apply focusInv_of_ensure_focus_visible
    split
    · rw [ensure_focus_valid_viewport]
      exact h.1
    · split <;> (simp only [ensure_focus_valid_viewport]; exact h.1)

theorem focusInv_scroll_down (s : WidgetState) (h : FocusInv s) : FocusInv s.scroll_down := by
  unfold WidgetState.scroll_down WidgetState.focus_next_row
  split
  · exact h
  · dsimp only
    apply focusInv_of_ensure_focus_visible
    split
    · rw [ensure_focus_valid_viewport]
      exact h.1
    · split <;> (simp only [ensure_focus_valid_viewport]; exact h.1)

theorem focusInv_focus_left (s : WidgetState) (h : FocusInv s) : FocusInv s.focus_left := by
  unfold WidgetState.focus_left
  dsimp only
  apply focusInv_of_ensure_focus_visible
  split
  · rw [ensure_focus_valid_viewport]
    exact h.1
  · split <;> (simp only [ensure_focus_valid_viewport]; exact h.1)

theorem focusInv_focus_right (s : WidgetState) (h : FocusInv s) : FocusInv s.focus_right := by
  unfold WidgetState.focus_right
  dsimp only
  apply focusInv_of_ensure_focus_visible
  split
  · rw [ensure_focus_valid_viewport]
    exact h.1
  · split <;> (simp only [ensure_focus_valid_viewport]; exact h.1)

theorem focusInv_update_viewport (s : WidgetState) (height : Nat) :
    FocusInv (s.update_viewport_height height) := by
  unfold WidgetState.update_viewport_height
  dsimp only
  apply focusInv_of_ensure_focus_visible
  rw [clamp_scroll_viewport]
  dsimp only
  omega

theorem focusInv_applyOp (s : WidgetState) (op : BufferOp) (h : FocusInv s) :
    FocusInv (s.applyOp op) := by
  cases op with
  | add m => exact focusInv_add s m h
  | scrollUp => exact focusInv_scroll_up s h
  | scrollDown => exact focusInv_scroll_down s h
  | focusLeft => exact focusInv_focus_left s h
  | focusRight => exact focusInv_focus_right s h
  | setViewport height => exact focusInv_update_viewport s height

theorem focusInv_foldl (ops : List BufferOp) :
    ∀ s : WidgetState, FocusInv s → FocusInv (ops.foldl WidgetState.applyOp s) := by
  induction ops with
  | nil => exact fun s h => h
  | cons op ops ih =>
    intro s h
    exact ih _ (focusInv_applyOp s op h)

/-- C3: after any interleaving of append, eviction (append at capacity),
and navigation operations with a positive viewport height, the focus is
`none` exactly when the buffer is empty, and otherwise denotes a valid
message index lying inside the current visible viewport window. -/
theorem focus_valid_and_visible (height : Nat) (ops : List BufferOp) :
    FocusInv (runOps height ops) := by
  unfold runOps
  exact focusInv_foldl ops _ (focusInv_update_viewport WidgetState.new height)

/-- C4 is violated by the code: typing a multi-byte character during an
edit session advances the byte cursor by one byte only (`*cursor += 1`),
leaving it in the middle of the code point, and the next insert panics
(`String::insert` off a character boundary).  Evaluated at the concrete
failing input: start editing an empty message, type the three-byte
character '你', then type 'a'. -/
theorem edit_cursor_breaks_char_boundary :
    ((WidgetState.new.add_transcription ⟨none, none, []⟩).start_editing.handle_char_input
        '你').map (fun s1 => s1.edit_mode) =
      some (.EditingMessage 0 ['你'] 1) ∧
    isCharBoundary ['你'] 1 = false ∧
    ((WidgetState.new.add_transcription ⟨none, none, []⟩).start_editing.handle_char_input
        '你').bind (fun s1 => s1.handle_char_input 'a') = none := by
  exact ⟨rfl, rfl, rfl⟩

end Fortis.Widgets

namespace Fortis.Transcribers

theorem chainLast_cons (lc : Bool) (v : Str) (vs : List Str) :
    chainLast lc (v :: vs) = chainLast (is_cjk v) vs := by
  cases vs with
  | nil => rfl
  | cons x xs => rfl

theorem chainLast_concat (lc : Bool) (ws : List Str) (w : Str) :
    chainLast lc (ws ++ [w]) = is_cjk w := by
  unfold chainLast
  rw [List.getLast?_concat]

theorem specJoinAux_append (lc : Bool) (ws : List Str) (w : Str) :
    specJoinAux lc (ws ++ [w]) =
      specJoinAux lc ws ++ (if chainLast lc ws && is_cjk w then w else ' ' :: w) := by
  induction ws generalizing lc with
  | nil =>
    show specJoinAux lc [w] = [] ++ _
    rw [List.nil_append]
    show (if lc && is_cjk w then w else ' ' :: w) ++ specJoinAux (is_cjk w) [] =
      if chainLast lc [] && is_cjk w then w else ' ' :: w
    show (if lc && is_cjk w then w else ' ' :: w) ++ [] = _
    rw [List.append_nil]
    rfl
  | cons v vs ih =>
    show (if lc && is_cjk v then v else ' ' :: v) ++ specJoinAux (is_cjk v) (vs ++ [w]) = _
    rw [ih, chainLast_cons]
    show _ = ((if lc && is_cjk v then v else ' ' :: v) ++ specJoinAux (is_cjk v) vs) ++ _
    rw [List.append_assoc]

theorem specJoin_singleton (w : Str) : specJoin [w] = w := by
  show w ++ specJoinAux (is_cjk w) [] = w
  show w ++ [] = w
  rw [List.append_nil]

theorem specJoin_ne_nil (run : List Str) (h : run ≠ [])
    (hw : ∀ r ∈ run, r ≠ []) : specJoin run ≠ [] := by
  cases run with
  | nil => exact absurd rfl h
  | cons r rs =>
    show r ++ specJoinAux (is_cjk r) rs ≠ []
    have : r ≠ [] := hw r (List.mem_cons_self r rs)
    intro hcontra
    rw [List.append_eq_nil] at hcontra
    exact this hcontra.1

theorem specJoin_concat (run : List Str) (w : Str) (h : run ≠ []) :
    specJoin (run ++ [w]) =
      specJoin run ++ (if chainLast false run && is_cjk w then w else ' ' :: w) := by
  cases run with
  | nil => exact absurd rfl h
  | cons r rs =>
    show r ++ specJoinAux (is_cjk r) (rs ++ [w]) = _
    rw [specJoinAux_append, chainLast_cons]
    show _ = (r ++ specJoinAux (is_cjk r) rs) ++ _
    rw [List.append_assoc]

theorem fmtStep_current (st : FmtState) (w : DgWord) :
    (fmtStep st w).current_speaker = w.speaker := by
  unfold fmtStep
  dsimp only
  split
  · split <;> rfl
  · rename_i hne
    simp only [ne_eq, not_not] at hne
    rw [← hne]

theorem fmtStep_results_of_eq (st : FmtState) (w : DgWord)
    (h : w.speaker = st.current_speaker) : (fmtStep st w).results = st.results := by
  unfold fmtStep
  rw [if_neg (by simp [h])]

end Fortis.Transcribers

namespace Fortis.Transcribers

theorem chainLast_singleton (w : Str) : chainLast false [w] = is_cjk w := by
  unfold chainLast
  rfl

/-- Running the word loop over a uniform tail: starting from a state
holding speaker `k` with the joined run accumulated, the loop produces
exactly the spec-side grouping of the remaining (fully diarized,
nonempty-texted) words. -/
theorem foldl_fmtStep_spec (ws : List DgWord) :
    ∀ (R : List TranscriptionResult) (k : Int) (run : List Str),
      run ≠ [] → (∀ r ∈ run, r ≠ []) →
      (∀ w ∈ ws, w.speaker.isSome) → (∀ w ∈ ws, w.word ≠ []) →
      fmtFinalize (ws.foldl fmtStep ⟨R, some k, specJoin run, chainLast false run⟩) =
        R ++ specGroupAux k run ws := by
  induction ws with
  | nil =>
    intro R k run hrun hrunw _ _
    rfl
  | cons w ws ih =>
    intro R k run hrun hrunw hsp hw
    have hw_head : w.word ≠ [] := hw w (List.mem_cons_self w ws)
    have hsp_tail : ∀ x ∈ ws, x.speaker.isSome :=
      fun x hx => hsp x (List.mem_cons_of_mem w hx)
    have hw_tail : ∀ x ∈ ws, x.word ≠ [] :=
      fun x hx => hw x (List.mem_cons_of_mem w hx)
    rw [List.foldl_cons]
    by_cases hk : w.speaker = some k
    · have hne' : (specJoin run).isEmpty = false := by
        have hne := specJoin_ne_nil run hrun hrunw
        cases hsj : specJoin run with
        | nil => exact absurd hsj hne
        | cons a l => rfl
      have hstep : fmtStep ⟨R, some k, specJoin run, chainLast false run⟩ w =
          ⟨R, some k, specJoin (run ++ [w.word]), chainLast false (run ++ [w.word])⟩ := by
        unfold fmtStep
        rw [if_neg (by simp [hk])]
        dsimp only
        rw [chainLast_concat]
        congr 1
        rw [specJoin_concat run w.word hrun, hne']
        cases hc : chainLast false run && is_cjk w.word <;> simp [hc]
      rw [hstep]
      rw [ih R k (run ++ [w.word]) (by simp)
        (by
          intro r hr
          rw [List.mem_append] at hr
          cases hr with
          | inl h => exact hrunw r h
          | inr h =>
            rw [List.mem_singleton] at h
            rw [h]
            exact hw_head)
        hsp_tail hw_tail]
      show _ = R ++ specGroupAux k run (w :: ws)
      conv_rhs => rw [specGroupAux]
      rw [if_pos hk]
    · obtain ⟨j, hj⟩ := Option.isSome_iff_exists.mp (hsp w (List.mem_cons_self w ws))
      have hstep : fmtStep ⟨R, some k, specJoin run, chainLast false run⟩ w =
          ⟨R ++ [⟨trimStr (specJoin run), some k⟩], some j, specJoin [w.word],
            chainLast false [w.word]⟩ := by
        unfold fmtStep
        rw [if_pos hk]
        dsimp only
        rw [hj, specJoin_singleton, chainLast_singleton]
        rfl
      rw [hstep]
      rw [ih (R ++ [TranscriptionResult.mk (trimStr (specJoin run)) (some k)]) j [w.word]
        (by simp)
        (by
          intro r hr
          rw [List.mem_singleton] at hr
          rw [hr]
          exact hw_head)
        hsp_tail hw_tail]
      show _ = R ++ specGroupAux k run (w :: ws)
      conv_rhs => rw [specGroupAux]
      rw [if_neg hk, hj]
      show _ = R ++ (⟨trimStr (specJoin run), some k⟩ :: specGroupAux j [w.word] ws)
      rw [List.append_assoc]
      rfl

end Fortis.Transcribers

namespace Fortis.Transcribers

theorem foldl_fmtStep_none (ws : List DgWord) :
    ∀ (R : List TranscriptionResult) (msg : Str) (lc : Bool),
      (∀ w ∈ ws, w.speaker = none) →
      (ws.foldl fmtStep ⟨R, none, msg, lc⟩).results = R ∧
      (ws.foldl fmtStep ⟨R, none, msg, lc⟩).current_speaker = none := by
  induction ws with
  | nil => intro R msg lc _; exact ⟨rfl, rfl⟩
  | cons w ws ih =>
    intro R msg lc h
    have hw : w.speaker = none := h w (List.mem_cons_self w ws)
    have hstep : ∃ msg' lc', fmtStep ⟨R, none, msg, lc⟩ w = ⟨R, none, msg', lc'⟩ := by
      unfold fmtStep
      rw [if_neg (by simp [hw])]
      exact ⟨_, _, rfl⟩
    obtain ⟨msg', lc', hstep⟩ := hstep
    rw [List.foldl_cons, hstep]
    exact ih R msg' lc' (fun x hx => h x (List.mem_cons_of_mem w hx))

theorem foldl_fmtStep_isSome (ws : List DgWord) :
    ∀ st : FmtState, st.current_speaker.isSome →
      (∀ w ∈ ws, w.speaker.isSome) →
      ((ws.foldl fmtStep st).current_speaker).isSome := by
  induction ws with
  | nil => intro st hst _; exact hst
  | cons w ws ih =>
    intro st _ h
    rw [List.foldl_cons]
    refine ih (fmtStep st w) ?_ (fun x hx => h x (List.mem_cons_of_mem w hx))
    rw [fmtStep_current]
    exact h w (List.mem_cons_self w ws)

theorem specGroupAux_uniform (ws : List DgWord) :
    ∀ (k : Int) (run : List Str), (∀ w ∈ ws, w.speaker = some k) →
      specGroupAux k run ws =
        [⟨trimStr (specJoin (run ++ ws.map (·.word))), some k⟩] := by
  induction ws with
  | nil =>
    intro k run _
    rw [List.map_nil, List.append_nil]
    rfl
  | cons w ws ih =>
    intro k run h
    have hwk : w.speaker = some k := h w (List.mem_cons_self w ws)
    show specGroupAux k run (w :: ws) = _
    conv_lhs => rw [specGroupAux]
    rw [if_pos hwk, ih k (run ++ [w.word]) (fun x hx => h x (List.mem_cons_of_mem w hx))]
    rw [List.append_assoc]
    rfl

theorem fmtStep_init_some (w : DgWord) (k : Int) (hk : w.speaker = some k) :
    fmtStep ⟨[], none, [], false⟩ w =
      ⟨[], some k, specJoin [w.word], chainLast false [w.word]⟩ := by
  unfold fmtStep
  rw [if_pos (by simp [hk])]
  dsimp only
  rw [hk, specJoin_singleton, chainLast_singleton]
  rfl

/-- C5: within one accumulated message, `format_response` joins
adjacent words with exactly one space, except that no space is inserted
when both the preceding and the following token are CJK — the message
equals the spec-side `specJoin` of the word texts. -/
theorem format_response_cjk_join (k : Int) (ws : List DgWord) (transcript : Str)
    (hne : ws ≠ []) (hsp : ∀ w ∈ ws, w.speaker = some k)
    (hw : ∀ w ∈ ws, w.word ≠ []) :
    format_response ws transcript =
      [⟨trimStr (specJoin (ws.map (·.word))), some k⟩] := by
  cases ws with
  | nil => exact absurd rfl hne
  | cons w ws =>
    have hk : w.speaker = some k := hsp w (List.mem_cons_self w ws)
    have hsp_tail : ∀ x ∈ ws, x.speaker = some k :=
      fun x hx => hsp x (List.mem_cons_of_mem w hx)
    have hw_head : w.word ≠ [] := hw w (List.mem_cons_self w ws)
    have hw_tail : ∀ x ∈ ws, x.word ≠ [] :=
      fun x hx => hw x (List.mem_cons_of_mem w hx)
    unfold format_response
    dsimp only
    rw [List.foldl_cons, fmtStep_init_some w k hk]
    have hisSome := foldl_fmtStep_isSome ws
      ⟨[], some k, specJoin [w.word], chainLast false [w.word]⟩ rfl
      (fun x hx => by rw [hsp_tail x hx]; rfl)
    obtain ⟨c, hc⟩ := Option.isSome_iff_exists.mp hisSome
    rw [hc]
    show (if (some c).isNone && !transcript.isEmpty then _ else _) = _
    rw [show (some c).isNone = false from rfl, Bool.false_and, if_neg (by simp)]
    have hfold := foldl_fmtStep_spec ws [] k [w.word] (by simp)
      (by
        intro r hr
        rw [List.mem_singleton] at hr
        rw [hr]
        exact hw_head)
      (fun x hx => by rw [hsp_tail x hx]; rfl) hw_tail
    rw [hfold, List.nil_append,
      specGroupAux_uniform ws k [w.word] hsp_tail, List.singleton_append, List.map_cons]

/-- Witness for `format_response_cjk_join`: the tokens 你, 好, world of
a single speaker render as 你好 world — no space inside the CJK pair,
one space before the Latin word. -/
theorem format_response_cjk_join_witness :
    format_response cjkWords [] =
      [⟨['你', '好', ' ', 'w', 'o', 'r', 'l', 'd'], some 0⟩] := by
  have h := format_response_cjk_join 0 cjkWords [] (by decide) (by decide) (by decide)
  rw [h]
  decide

end Fortis.Transcribers

namespace Fortis.Transcribers

/-- C6 amended: when speaker metadata is uniform, `format_response`
behaves as specified — with full diarization it groups consecutive
same-speaker words into events (flush on speaker change and at the
end), and with no speaker metadata it emits the whole transcript as a
single speaker-less event (when nonempty).  With mixed metadata the
code merges or duplicates text (see the counterexample). -/
theorem format_response_grouping (ws : List DgWord) (transcript : Str) :
    (ws ≠ [] → (∀ w ∈ ws, w.speaker.isSome) → (∀ w ∈ ws, w.word ≠ []) →
      format_response ws transcript = specGroup ws) ∧
    ((∀ w ∈ ws, w.speaker = none) →
      format_response ws transcript =
        if transcript.isEmpty then [] else [⟨transcript, none⟩]) := by
  constructor
  · intro hne hsp hw
    cases ws with
    | nil => exact absurd rfl hne
    | cons w ws =>
      obtain ⟨k, hk⟩ := Option.isSome_iff_exists.mp (hsp w (List.mem_cons_self w ws))
      have hsp_tail : ∀ x ∈ ws, x.speaker.isSome :=
        fun x hx => hsp x (List.mem_cons_of_mem w hx)
      have hw_head : w.word ≠ [] := hw w (List.mem_cons_self w ws)
      have hw_tail : ∀ x ∈ ws, x.word ≠ [] :=
        fun x hx => hw x (List.mem_cons_of_mem w hx)
      unfold format_response
      dsimp only
      rw [List.foldl_cons, fmtStep_init_some w k hk]
      have hisSome := foldl_fmtStep_isSome ws
        ⟨[], some k, specJoin [w.word], chainLast false [w.word]⟩ rfl hsp_tail
      obtain ⟨c, hc⟩ := Option.isSome_iff_exists.mp hisSome
      rw [hc]
      rw [show (some c).isNone = false from rfl, Bool.false_and, if_neg (by simp)]
      have hfold := foldl_fmtStep_spec ws [] k [w.word] (by simp)
        (by
          intro r hr
          rw [List.mem_singleton] at hr
          rw [hr]
          exact hw_head)
        hsp_tail hw_tail
      rw [hfold, List.nil_append]
      show specGroupAux k [w.word] ws = specGroupAux (w.speaker.getD 0) [w.word] ws
      rw [hk]
      rfl
  · intro hnone
    obtain ⟨hres, hcur⟩ := foldl_fmtStep_none ws [] [] false hnone
    unfold format_response
    dsimp only
    rw [hcur]
    have hfin : fmtFinalize (ws.foldl fmtStep ⟨[], none, [], false⟩) = [] := by
      unfold fmtFinalize
      rw [hcur, hres]
    cases ht : transcript.isEmpty with
    | true => rw [if_neg (by simp), hfin, if_pos rfl]
    | false => rw [if_pos (by simp), hfin, List.nil_append, if_neg (by simp)]

/-- Witness for `format_response_grouping`: the fully diarized CJK
example groups into the single specified event, and a speakerless word
list emits the whole transcript once. -/
theorem format_response_grouping_witness :
    format_response cjkWords ['x'] = specGroup cjkWords ∧
    format_response [DgWord.mk ['h', 'i'] none] ['h', 'i'] = [⟨['h', 'i'], none⟩] := by
  constructor
  · exact (format_response_grouping cjkWords ['x']).1 (by decide) (by decide) (by decide)
  · have h := (format_response_grouping [DgWord.mk ['h', 'i'] none] ['h', 'i']).2 (by decide)
    rw [h]
    decide

/-- C6 counterexample: on a response whose words mix diarized and
undiarized speaker metadata, `format_response` emits the text of the
first word twice — once in its own event and once inside the
whole-transcript fallback event — so words do not appear in exactly one
emitted event and the undiarized accumulation is never flushed as its
own event. -/
theorem format_response_duplicates_text :
    format_response mixedWords ['a', ' ', 'b'] =
      [⟨['a'], some 0⟩, ⟨['a', ' ', 'b'], none⟩] ∧
    (format_response mixedWords ['a', ' ', 'b']).countP
      (fun r => r.transcript.contains 'a') = 2 := by
  decide

/-- C10: the main loop's sentinel filtering is by literal text only —
a drained result is dropped exactly when its transcript equals
"Transcription stream ended" character for character, regardless of its
speaker id; every other result is added to the transcript buffer with
its speaker resolved. -/
theorem mainLoopDrain_filters_sentinel (get_speaker_name : Int → Str)
    (results : List TranscriptionResult) :
    mainLoopDrain get_speaker_name results =
      (results.filter (fun r => r.transcript ≠ endSentinel)).map
        (fun r => Widgets.TranscriptionMessage.mk
          (r.speaker_id.map get_speaker_name) r.speaker_id r.transcript) := by
  have aux : ∀ (rs : List TranscriptionResult) (acc : List Widgets.TranscriptionMessage),
      rs.foldl
        (fun acc r =>
          if r.transcript ≠ endSentinel then
            acc ++ [⟨r.speaker_id.map get_speaker_name, r.speaker_id, r.transcript⟩]
          else acc)
        acc =
      acc ++ (rs.filter (fun r => r.transcript ≠ endSentinel)).map
        (fun r => Widgets.TranscriptionMessage.mk
          (r.speaker_id.map get_speaker_name) r.speaker_id r.transcript) := by
    intro rs
    induction rs with
    | nil => intro acc; rw [List.foldl_nil, List.filter_nil, List.map_nil, List.append_nil]
    | cons r rs ih =>
      intro acc
      rw [List.foldl_cons]
      by_cases hr : r.transcript = endSentinel
      · rw [if_neg (by simp [hr]), ih, List.filter_cons, if_neg (by simp [hr])]
      · rw [if_pos (by simp [hr]), ih, List.filter_cons, if_pos (by simp [hr]),
          List.map_cons, List.append_assoc, List.singleton_append]
  unfold mainLoopDrain
  rw [aux, List.nil_append]

end Fortis.Transcribers

namespace Fortis.Worker

theorem microStep_stopJoin (a : Nat) (h : Bool) (ha : a = if h then 1 else 0) :
    microStep ⟨a, h⟩ .stopJoin = ⟨0, false⟩ := by
  cases h with
  | false =>
    simp only [Bool.false_eq_true, if_false] at ha
    unfold microStep
    simp [ha]
  | true =>
    simp only [if_true] at ha
    unfold microStep
    simp [ha]

theorem microTrace_bounded (ops : List WorkerOp) :
    ∀ s : WorkerSys, s.alive = (if s.handle then 1 else 0) →
      (microTrace s (ops.map expandOp).flatten).all (fun t => t.alive ≤ 1) = true := by
  induction ops with
  | nil =>
    intro s hs
    simp only [List.map_nil, List.flatten_nil, microTrace, List.all_cons, List.all_nil,
      Bool.and_true]
    rw [decide_eq_true_eq]
    split at hs <;> omega
  | cons op ops ih =>
    intro s hs
    obtain ⟨a, h⟩ := s
    dsimp only at hs
    have hbound : a ≤ 1 := by split at hs <;> omega
    cases op with
    | restart =>
      show (microTrace ⟨a, h⟩ (.stopJoin :: .spawnStep :: (ops.map expandOp).flatten)).all
        (fun t => t.alive ≤ 1) = true
      simp only [microTrace, List.all_cons, microStep_stopJoin a h hs]
      have hspawn : microStep ⟨0, false⟩ .spawnStep = ⟨1, true⟩ := rfl
      rw [hspawn, ih ⟨1, true⟩ rfl]
      simp [hbound]
    | stop =>
      show (microTrace ⟨a, h⟩ (.stopJoin :: (ops.map expandOp).flatten)).all
        (fun t => t.alive ≤ 1) = true
      simp only [microTrace, List.all_cons, microStep_stopJoin a h hs]
      rw [ih ⟨0, false⟩ rfl]
      simp [hbound]

/-- C9: `restart` joins the outgoing worker thread before spawning its
replacement, so along the whole lifecycle — initial spawn followed by
any sequence of restart/stop operations — at most one capture worker is
alive at every intermediate instant. -/
theorem at_most_one_worker_alive (ops : List WorkerOp) :
    (workerStates ops).all (fun t => t.alive ≤ 1) = true := by
  unfold workerStates
  show (microTrace ⟨0, false⟩ (.spawnStep :: (ops.map expandOp).flatten)).all
    (fun t => t.alive ≤ 1) = true
  simp only [microTrace, List.all_cons]
  have hspawn : microStep ⟨0, false⟩ .spawnStep = ⟨1, true⟩ := rfl
  rw [hspawn, microTrace_bounded ops ⟨1, true⟩ rfl]
  simp

end Fortis.Worker

namespace Fortis.Audio

/-- C7 counterexample: startup is not fatal when device enumeration
fails or yields no devices — `resolve_audio_device` (called from
`AppState::new`, which cannot fail) swallows the failure and returns
the placeholder device (index 0, name "Unknown Device"), and the
application proceeds to the main loop with it instead of aborting. -/
theorem startup_not_fatal_on_enumeration_failure :
    (resolve_audio_device deviceCfgSample (.error ())).2 = (0, "Unknown Device") ∧
    (resolve_audio_device deviceCfgSample (.ok [])).2 = (0, "Unknown Device") :=
  ⟨rfl, rfl⟩

/-- C7 amended: capture setup (`list_audio_devices`, used by the
capture worker) returns an error exactly when enumeration fails or the
device list is empty; but startup is not fatal in these cases —
`resolve_audio_device` returns the placeholder device (index 0,
"Unknown Device") and the application continues into the main loop. -/
theorem capture_setup_error_iff (host : Except Unit (List String))
    (config : Config.SelectState) :
    ((∃ msg, list_audio_devices host = .error msg) ↔
      host = .error () ∨ host = .ok []) ∧
    ((host = .error () ∨ host = .ok []) →
      (resolve_audio_device config host).2 = (0, "Unknown Device")) := by
  constructor
  · constructor
    · rintro ⟨msg, hmsg⟩
      cases host with
      | error e => cases e; exact Or.inl rfl
      | ok devices =>
        cases devices with
        | nil => exact Or.inr rfl
        | cons d ds => simp [list_audio_devices] at hmsg
    · rintro (h | h) <;> subst h
      · exact ⟨_, rfl⟩
      · exact ⟨_, rfl⟩
  · rintro (h | h) <;> subst h
    · rfl
    · rfl

/-- Witness for `capture_setup_error_iff` at a failed enumeration. -/
theorem capture_setup_error_iff_witness :
    (resolve_audio_device deviceCfgSample (.error ())).2 = (0, "Unknown Device") :=
  (capture_setup_error_iff (.error ()) deviceCfgSample).2 (Or.inl rfl)

end Fortis.Audio

namespace Fortis.Config

theorem rust_mod_eq_emod (x n : Int) (hn : 0 < n) :
    ((x.tmod n) + n).tmod n = x % n := by
  have hcong : x.tmod n % n = x % n := by
    rw [Int.tmod_def, show x - n * x.tdiv n = x + n * (-(x.tdiv n)) by ring,
      Int.add_mul_emod_self_left]
  have hub : x.tmod n < n := Int.tmod_lt_of_pos x hn
  have hneg : (-x).tmod n = -(x.tmod n) := by
    rw [Int.tmod_def, Int.tmod_def, Int.neg_tdiv]
    ring
  have hlb : -n < x.tmod n := by
    have h := Int.tmod_lt_of_pos (-x) hn
    rw [hneg] at h
    omega
  rw [Int.tmod_eq_emod (by omega) hn.le,
    show x.tmod n + n = x.tmod n + n * 1 by ring, Int.add_mul_emod_self_left, hcong]

theorem rust_mod_range (x n : Int) (hn : 0 < n) :
    0 ≤ ((x.tmod n) + n).tmod n ∧ ((x.tmod n) + n).tmod n < n := by
  rw [rust_mod_eq_emod x n hn]
  exact ⟨Int.emod_nonneg x (by omega), Int.emod_lt_of_pos x hn⟩

theorem mem_of_any_value (opts : List SelectOption) (v : String)
    (h : ∃ opt ∈ opts, opt.value = v) :
    opts.any (fun opt => opt.value == v) = true := by
  obtain ⟨opt, hmem, hval⟩ := h
  rw [List.any_eq_true]
  exact ⟨opt, hmem, by rw [hval]; exact beq_self_eq_true v⟩

theorem select_value_of_inv (s : SelectState) (hInv : SelectInv s) :
    select_value s = s.stored.getD s.field.default := by
  have hmem : ∃ opt ∈ s.field.options, opt.value = s.stored.getD s.field.default := by
    cases hst : s.stored with
    | none => exact hInv.2.2.1
    | some w => exact hInv.2.2.2 w hst
  unfold select_value
  rw [if_pos (mem_of_any_value _ _ hmem)]

theorem select_value_mem (s : SelectState) (hInv : SelectInv s) :
    ∃ opt ∈ s.field.options, opt.value = select_value s := by
  rw [select_value_of_inv s hInv]
  cases hst : s.stored with
  | none => exact hInv.2.2.1
  | some w => exact hInv.2.2.2 w hst

theorem set_select_spec (s : SelectState) (v : String) (hInv : SelectInv s)
    (hv : ∃ opt ∈ s.field.options, opt.value = v) :
    ∃ s' changed, set_select s v = .ok (s', changed) ∧
      s'.field = s.field ∧ SelectInv s' ∧ select_value s' = v ∧
      (changed = true ↔ select_value s ≠ v) ∧ (changed = false → s' = s) := by
  have hany := mem_of_any_value _ _ hv
  have hcur : s.stored.getD s.field.default = select_value s :=
    (select_value_of_inv s hInv).symm
  unfold set_select
  rw [if_neg (by simp [hany])]
  dsimp only
  by_cases heq : s.stored.getD s.field.default = v
  · rw [if_pos heq]
    refine ⟨s, false, rfl, rfl, hInv, by rw [← hcur, heq], ?_, fun _ => rfl⟩
    rw [← hcur]
    simp [heq]
  · rw [if_neg heq]
    refine ⟨_, true, rfl, rfl, ?_, ?_, ?_, by intro h; cases h⟩
    · refine ⟨hInv.1, hInv.2.1, hInv.2.2.1, ?_⟩
      intro w hw
      dsimp only at hw
      split at hw
      · cases hw
      · cases hw
        exact hv
    · show select_value ⟨s.field, if v = s.field.default then none else some v⟩ = v
      unfold select_value
      dsimp only
      split
      · rename_i hdef
        rw [Option.getD_none, if_pos (mem_of_any_value _ _ (by rw [hdef] at hv; exact hv))]
        rw [hdef]
      · rw [Option.getD_some, if_pos hany]
    · rw [← hcur]
      simp [heq]

theorem findIdx_options (opts : List SelectOption) :
    ∀ (j : Nat) (hj : j < opts.length),
      (opts.map (fun opt => opt.value)).Nodup →
      opts.findIdx? (fun opt => opt.value == opts[j].value) = some j := by
  induction opts with
  | nil => intro j hj _; simp at hj
  | cons a l ih =>
    intro j hj hnd
    rw [List.map_cons, List.nodup_cons] at hnd
    cases j with
    | zero =>
      rw [List.findIdx?_cons, if_pos (by simp)]
    | succ j =>
      have hj' : j < l.length := by
        rw [List.length_cons] at hj
        omega
      simp only [List.getElem_cons_succ]
      have hmem : l[j].value ∈ l.map (fun opt => opt.value) :=
        List.mem_map.mpr ⟨l[j], List.mem_iff_getElem.mpr ⟨j, hj', rfl⟩, rfl⟩
      have hne : (a.value == l[j].value) = false :=
        beq_eq_false_iff_ne.mpr (fun h => hnd.1 (h ▸ hmem))
      rw [List.findIdx?_cons, if_neg (by simp [hne]), List.findIdx?_succ,
        ih j hj' hnd.2]
      rfl

end Fortis.Config

namespace Fortis.Config

theorem cycle_index_lt (n : Nat) (hn : 0 < n) (i d : Int) :
    (((i + d).tmod (n : Int) + (n : Int)).tmod (n : Int)).toNat < n := by
  have hnI : (0 : Int) < (n : Int) := by exact_mod_cast hn
  have h := rust_mod_range (i + d) (n : Int) hnI
  have := (Int.toNat_lt h.1).mpr h.2
  exact_mod_cast this

theorem nextVal_at_index (F : SelectField) (d : Int) (v : String) (j : Nat)
    (hj : j < F.options.length)
    (hfind : F.options.findIdx? (fun opt => opt.value == v) = some j) :
    ∃ (j' : Nat) (hj' : j' < F.options.length),
      (j' : Int) = ((j : Int) + d) % (F.options.length : Int) ∧
      nextVal F d v = (F.options[j']).value := by
  have hnI : (0 : Int) < (F.options.length : Int) := by
    exact_mod_cast (show 0 < F.options.length by omega)
  have hmod := rust_mod_eq_emod ((j : Int) + d) (F.options.length : Int) hnI
  have h0 : 0 ≤ ((j : Int) + d) % (F.options.length : Int) :=
    Int.emod_nonneg _ (by omega)
  have h1 : ((j : Int) + d) % (F.options.length : Int) < (F.options.length : Int) :=
    Int.emod_lt_of_pos _ hnI
  have hlt : (((j : Int) + d) % (F.options.length : Int)).toNat < F.options.length := by
    have := (Int.toNat_lt h0).mpr h1
    exact_mod_cast this
  refine ⟨_, hlt, Int.toNat_of_nonneg h0, ?_⟩
  unfold nextVal
  dsimp only
  rw [hfind]
  dsimp only
  rw [hmod, List.getElem?_eq_getElem hlt]

theorem nextVal_mem (F : SelectField) (d : Int) (v : String) (j : Nat)
    (hj : j < F.options.length)
    (hfind : F.options.findIdx? (fun opt => opt.value == v) = some j) :
    ∃ opt ∈ F.options, opt.value = nextVal F d v := by
  obtain ⟨j', hj', _, hval⟩ := nextVal_at_index F d v j hj hfind
  exact ⟨F.options[j'], List.mem_iff_getElem.mpr ⟨j', hj', rfl⟩, hval.symm⟩

theorem findIdx_of_value (F : SelectField)
    (hnd : (F.options.map (fun opt => opt.value)).Nodup) (v : String)
    (hv : ∃ opt ∈ F.options, opt.value = v) :
    ∃ j, ∃ hj : j < F.options.length,
      F.options.findIdx? (fun opt => opt.value == v) = some j ∧
      (F.options[j]).value = v := by
  obtain ⟨opt, hmem, hval⟩ := hv
  obtain ⟨j, hj, hjv⟩ := List.mem_iff_getElem.mp hmem
  have hveq : (F.options[j]).value = v := by rw [hjv, hval]
  refine ⟨j, hj, ?_, hveq⟩
  rw [← hveq]
  exact findIdx_options F.options j hj hnd

theorem nextVal_inverse (F : SelectField)
    (hnd : (F.options.map (fun opt => opt.value)).Nodup) (v : String)
    (hv : ∃ opt ∈ F.options, opt.value = v) :
    nextVal F (-1) (nextVal F 1 v) = v := by
  obtain ⟨j, hj, hfind, hjv⟩ := findIdx_of_value F hnd v hv
  obtain ⟨j1, hj1, hj1E, hv1⟩ := nextVal_at_index F 1 v j hj hfind
  have hfind1 : F.options.findIdx? (fun opt => opt.value == (F.options[j1]).value) =
      some j1 := findIdx_options F.options j1 hj1 hnd
  obtain ⟨j2, hj2, hj2E, hv2⟩ :=
    nextVal_at_index F (-1) (F.options[j1]).value j1 hj1 hfind1
  rw [show ((j1 : Int) + (-1)) = ((j1 : Int) - 1) from by ring] at hj2E
  rw [hv1, hv2]
  have hnI : (0 : Int) < (F.options.length : Int) := by
    exact_mod_cast (show 0 < F.options.length by omega)
  have hj2j : j2 = j := by
    by_cases hc : j + 1 = F.options.length
    · have hcast : ((j : Int) + 1) = (F.options.length : Int) := by exact_mod_cast hc
      have e1 : ((j : Int) + 1) % (F.options.length : Int) = 0 := by
        rw [hcast, Int.emod_self]
      have hj10 : j1 = 0 := by omega
      have e2 : ((j1 : Int) - 1) % (F.options.length : Int) =
          (F.options.length : Int) - 1 := by
        have hj10I : (j1 : Int) = 0 := by exact_mod_cast hj10
        rw [hj10I, show (0 : Int) - 1 = -1 from rfl, Int.neg_emod]
        exact Int.emod_eq_of_lt (by omega) (by omega)
      omega
    · have hlt : (j : Int) + 1 < (F.options.length : Int) := by
        have h := show j + 1 < F.options.length by omega
        exact_mod_cast h
      have e1 : ((j : Int) + 1) % (F.options.length : Int) = (j : Int) + 1 :=
        Int.emod_eq_of_lt (by omega) hlt
      have hj1v : (j1 : Int) = (j : Int) + 1 := by rw [hj1E, e1]
      have e2 : ((j1 : Int) - 1) % (F.options.length : Int) = (j : Int) := by
        rw [hj1v, show (j : Int) + 1 - 1 = (j : Int) by ring]
        exact Int.emod_eq_of_lt (by omega) (by exact_mod_cast hj)
      omega
  subst hj2j
  exact hjv

end Fortis.Config

namespace Fortis.Config

theorem cycle_select_spec (s : SelectState) (d : Int) (hInv : SelectInv s) :
    ∃ s' changed, cycle_select s d = .ok (s', changed) ∧
      s'.field = s.field ∧ SelectInv s' ∧
      select_value s' = nextVal s.field d (select_value s) ∧
      (changed = true ↔ select_value s ≠ nextVal s.field d (select_value s)) ∧
      (changed = false → s' = s) := by
  have hne : s.field.options ≠ [] := hInv.1
  have hempty : s.field.options.isEmpty = false := by
    cases hopts : s.field.options with
    | nil => exact absurd hopts hne
    | cons a l => rfl
  obtain ⟨j, hj, hfind, hjv⟩ := findIdx_of_value s.field hInv.2.1 (select_value s)
    (select_value_mem s hInv)
  obtain ⟨j', hj', hj'E, hnv⟩ := nextVal_at_index s.field d (select_value s) j hj hfind
  have hmem' : ∃ opt ∈ s.field.options, opt.value = nextVal s.field d (select_value s) := by
    rw [hnv]
    exact ⟨_, List.mem_iff_getElem.mpr ⟨j', hj', rfl⟩, rfl⟩
  obtain ⟨s', changed, hset, hfield, hinv', hval, hiff, hunch⟩ :=
    set_select_spec s (nextVal s.field d (select_value s)) hInv hmem'
  refine ⟨s', changed, ?_, hfield, hinv', hval, hiff, hunch⟩
  rw [← hset]
  unfold cycle_select
  rw [if_neg (by simp [hempty])]
  dsimp only
  rw [hfind]
  dsimp only
  have hnI : (0 : Int) < (s.field.options.length : Int) := by
    exact_mod_cast (show 0 < s.field.options.length by omega)
  rw [rust_mod_eq_emod ((j : Int) + d) _ hnI, ← hj'E, Int.toNat_ofNat,
    List.getElem?_eq_getElem hj']
  dsimp only
  rw [hnv]

theorem runSelectOp_spec (s : SelectState) (op : SelectOp) (hInv : SelectInv s) :
    SelectInv (runSelectOp s op).1 ∧ (runSelectOp s op).1.field = s.field ∧
    ((runSelectOp s op).2 = true ↔
      select_value (runSelectOp s op).1 ≠ select_value s) := by
  cases op with
  | setSel v =>
    by_cases hv : ∃ opt ∈ s.field.options, opt.value = v
    · obtain ⟨s', changed, hset, hfield, hinv', hval, hiff, hunch⟩ :=
        set_select_spec s v hInv hv
      show SelectInv (runSelectOp s (.setSel v)).1 ∧ _
      unfold runSelectOp
      dsimp only
      rw [hset]
      refine ⟨hinv', hfield, ?_⟩
      rw [hiff, hval]
      constructor
      · intro h hcontra
        exact h hcontra.symm
      · intro h hcontra
        exact h hcontra.symm
    · have hany : s.field.options.any (fun opt => opt.value == v) = false := by
        rw [Bool.eq_false_iff]
        intro hcontra
        rw [List.any_eq_true] at hcontra
        obtain ⟨opt, hmem, hbeq⟩ := hcontra
        exact hv ⟨opt, hmem, by rwa [beq_iff_eq] at hbeq⟩
      have herr : set_select s v = .error () := by
        unfold set_select
        rw [if_pos (by simp [hany])]
      unfold runSelectOp
      dsimp only
      rw [herr]
      exact ⟨hInv, rfl, by simp⟩
  | cycleSel d =>
    obtain ⟨s', changed, hcyc, hfield, hinv', hval, hiff, hunch⟩ :=
      cycle_select_spec s d hInv
    unfold runSelectOp
    dsimp only
    rw [hcyc]
    refine ⟨hinv', hfield, ?_⟩
    rw [hiff, hval]
    constructor
    · intro h hcontra
      exact h hcontra.symm
    · intro h hcontra
      exact h hcontra.symm

/-- Along any run of `set_select`/`cycle_select` operations on a valid
select entry, the number of persistence writes equals the number of
genuine observable value changes. -/
theorem runSelectOps_writes (ops : List SelectOp) :
    ∀ s : SelectState, SelectInv s →
      (runSelectOps s ops).2 = countChanges s ops := by
  induction ops with
  | nil => intro s _; rfl
  | cons op ops ih =>
    intro s hInv
    obtain ⟨hinv', _, hiff⟩ := runSelectOp_spec s op hInv
    show (if (runSelectOp s op).2 then 1 else 0) + (runSelectOps (runSelectOp s op).1 ops).2 =
      (if select_value (runSelectOp s op).1 ≠ select_value s then 1 else 0) +
        countChanges (runSelectOp s op).1 ops
    rw [ih (runSelectOp s op).1 hinv']
    congr 1
    by_cases hch : select_value (runSelectOp s op).1 ≠ select_value s
    · rw [if_pos hch, if_pos (hiff.mpr hch)]
    · rw [if_neg hch]
      have : (runSelectOp s op).2 = false := by
        cases hb : (runSelectOp s op).2 with
        | false => rfl
        | true => exact absurd (hiff.mp hb) hch
      rw [this]
      rfl

theorem cycleStep_spec (d : Int) (s : SelectState) (hInv : SelectInv s) :
    SelectInv (cycleStep d s) ∧ (cycleStep d s).field = s.field ∧
      select_value (cycleStep d s) = nextVal s.field d (select_value s) := by
  obtain ⟨s', changed, hcyc, hfield, hinv', hval, _, _⟩ := cycle_select_spec s d hInv
  unfold cycleStep runSelectOp
  dsimp only
  rw [hcyc]
  exact ⟨hinv', hfield, hval⟩

theorem cycleStep_iterate (d : Int) (N : Nat) :
    ∀ s : SelectState, SelectInv s →
      SelectInv ((cycleStep d)^[N] s) ∧ ((cycleStep d)^[N] s).field = s.field ∧
      select_value ((cycleStep d)^[N] s) =
        (fun v => nextVal s.field d v)^[N] (select_value s) := by
  induction N with
  | zero => intro s hInv; exact ⟨hInv, rfl, rfl⟩
  | succ N ih =>
    intro s hInv
    obtain ⟨hinv1, hfield1, hval1⟩ := cycleStep_spec d s hInv
    obtain ⟨hinvN, hfieldN, hvalN⟩ := ih (cycleStep d s) hinv1
    rw [Function.iterate_succ_apply, Function.iterate_succ_apply]
    refine ⟨hinvN, by rw [hfieldN, hfield1], ?_⟩
    rw [hvalN, hfield1, hval1]

theorem nextVal_iterate_mem (F : SelectField)
    (hnd : (F.options.map (fun opt => opt.value)).Nodup) (N : Nat) :
    ∀ v : String, (∃ opt ∈ F.options, opt.value = v) →
      ∃ opt ∈ F.options, opt.value = (fun w => nextVal F 1 w)^[N] v := by
  induction N with
  | zero => intro v hv; exact hv
  | succ N ih =>
    intro v hv
    rw [Function.iterate_succ_apply]
    obtain ⟨j, hj, hfind, _⟩ := findIdx_of_value F hnd v hv
    exact ih (nextVal F 1 v) (nextVal_mem F 1 v j hj hfind)

theorem nextVal_roundtrip (F : SelectField)
    (hnd : (F.options.map (fun opt => opt.value)).Nodup) (N : Nat) :
    ∀ v : String, (∃ opt ∈ F.options, opt.value = v) →
      (fun w => nextVal F (-1) w)^[N] ((fun w => nextVal F 1 w)^[N] v) = v := by
  induction N with
  | zero => intro v _; rfl
  | succ N ih =>
    intro v hv
    obtain ⟨j, hj, hfind, _⟩ := findIdx_of_value F hnd v hv
    have hmem1 : ∃ opt ∈ F.options, opt.value = nextVal F 1 v :=
      nextVal_mem F 1 v j hj hfind
    rw [Function.iterate_succ_apply', Function.iterate_succ_apply]
    rw [ih (nextVal F 1 v) hmem1]
    exact nextVal_inverse F hnd v hv

end Fortis.Config

namespace Fortis.Config

/-- C8: on a valid select entry (nonempty option list with distinct
values, default among the options, stored value valid when present),
cycling forward N times then backward N times restores the observable
value; across any sequence of `set_select`/`cycle_select` calls the
number of persistence writes equals the number of genuine value
changes; and `set_select` with the current value returns `false` and
performs no write. -/
theorem select_cycle_roundtrip_and_write_discipline (s : SelectState) (hInv : SelectInv s) :
    (∀ N : Nat, select_value ((cycleStep (-1))^[N] ((cycleStep 1)^[N] s)) = select_value s) ∧
    (∀ ops : List SelectOp, (runSelectOps s ops).2 = countChanges s ops) ∧
    set_select s (select_value s) = .ok (s, false) := by
  refine ⟨?_, fun ops => runSelectOps_writes ops s hInv, ?_⟩
  · intro N
    obtain ⟨hinvF, hfieldF, hvalF⟩ := cycleStep_iterate 1 N s hInv
    obtain ⟨hinvB, hfieldB, hvalB⟩ := cycleStep_iterate (-1) N ((cycleStep 1)^[N] s) hinvF
    rw [hvalB, hfieldF, hvalF]
    exact nextVal_roundtrip s.field hInv.2.1 N (select_value s) (select_value_mem s hInv)
  · have hcur : s.stored.getD s.field.default = select_value s :=
      (select_value_of_inv s hInv).symm
    unfold set_select
    rw [if_neg (by simp [mem_of_any_value _ _ (select_value_mem s hInv)])]
    dsimp only
    rw [if_pos hcur]

/-- Witness for `select_cycle_roundtrip_and_write_discipline` on the
shipped accent-color entry, with N = 2. -/
theorem select_cycle_roundtrip_witness :
    select_value ((cycleStep (-1))^[2] ((cycleStep 1)^[2] accentState)) =
      select_value accentState ∧
    set_select accentState (select_value accentState) = .ok (accentState, false) := by
  have hInv : SelectInv accentState := by
    refine ⟨by decide, by decide, by decide, ?_⟩
    intro v h
    exact Option.noConfusion h
  have h := select_cycle_roundtrip_and_write_discipline accentState hInv
  exact ⟨h.1 2, h.2.2⟩

end Fortis.Config
